import Mathlib

/-!
Verification of the genotyping core `hisatgenotype_typing_core.py`.

This file gives a shallow embedding, in Lean 4, of the data model and the
operations of the typing core: the variant catalog and its novel-variant
insertion rule (`add_novel_var`), the cached rightmost-affected-position
table (`gene_var_maxrights`), pileup-driven error correction
(`error_correct`), the CIGAR match-run decoder, the novel-variant
promotion loop, allele-compatibility counting (`add_count`), best-pair
selection (`choose_pairs`) and the representative-allele reducer
(`get_rep_alleles`).

Modelling conventions, used throughout:
* Python strings are Lean `String`s; operations that the kernel cannot
  reduce on `String` (lexicographic `<`, `int(...)`, `startswith`) are
  implemented over `String.data` (`pyStrLt`, `pyInt`, `startsWithNv`)
  with the same semantics.
* Python dicts are association lists with lookup `alookup`; the embedded
  code only ever inserts fresh keys, so first-match lookup agrees with
  dict lookup.
* Python sets of strings are lists; where the set's iteration order is
  irrelevant to a claim, list order stands in for it.
* A failing Python `assert`, a `KeyError`, or an out-of-range string
  index aborts the run; fallible operations therefore return `Option`,
  with `none` for those aborts.
-/

/-- Variant kinds: `single`, `insertion`, `deletion` (strings in the source). -/
inductive VarType where
  | single
  | insertion
  | deletion
deriving DecidableEq, Repr

/-- `var: [var_type, var_pos, var_data]` of the source.  `data` holds the
substituted base, the inserted sequence, or the decimal deletion length. -/
structure Variant where
  type : VarType
  pos : Nat
  data : String
deriving DecidableEq, Repr

/-- Association-list lookup, modelling Python dict access (`d[k]`, `k in d`). -/
def alookup {β : Type} : List (String × β) → String → Option β
  | [], _ => none
  | (k', v) :: rest, k => if k' = k then some v else alookup rest k

/-- Lexicographic comparison on char lists, modelling Python `<` on strings. -/
def pyStrLtL : List Char → List Char → Bool
  | [], [] => false
  | [], _ :: _ => true
  | _ :: _, [] => false
  | a :: as, b :: bs => if a < b then true else if b < a then false else pyStrLtL as bs

/-- Python `s < t` on strings. -/
def pyStrLt (a b : String) : Bool := pyStrLtL a.data b.data

/-- Python `int(s)` on a decimal-digit string (the only use in the source). -/
def pyInt (s : String) : Nat :=
  s.data.foldl (fun a c => a * 10 + (c.toNat - 48)) 0

/-- Python `s.startswith("nv")`. -/
def startsWithNv (s : String) : Bool := s.data.take 2 = ['n', 'v']

/-- Modelled from the spec: `typing_common.lower_bound` is not under `src/`;
the spec describes it as lower-bound search over the ordered `(position, id)`
sequence, i.e. the first index whose position is `≥` the query (list length
when there is none). -/
def lower_bound (l : List (Nat × String)) (p : Nat) : Nat :=
  l.findIdx (fun e => p ≤ e.1)

/-- The rightmost affected position of a variant as the source computes it:
`var_pos + int(var_data) - 1` for a deletion, `var_pos` otherwise. -/
def varRightI (v : Variant) : Int :=
  if v.type = VarType.deletion then (v.pos : Int) + (pyInt v.data : Int) - 1
  else (v.pos : Int)

/-- The `gene_var_maxrights` construction (typing, lines 394-402): walk the
position-ordered `gene_var_list`, keep a running maximum `cur_maxright` of
the rightmost affected positions, and store the running maximum for each
variant id.  `none` models the `KeyError` on an id missing from `gene_vars`. -/
def gene_var_maxrights (vars : List (String × Variant)) :
    List (Nat × String) → Int → Option (List (String × Int))
  | [], _ => some []
  | (_, vid) :: rest, cur =>
    match alookup vars vid with
    | none => none
    | some v =>
      let cur' := max cur (varRightI v)
      (gene_var_maxrights vars rest cur').map (fun m => (vid, cur') :: m)

/-- The rightmost affected position of the variant an id resolves to
(`0` as an unused default for a dangling id). -/
def rightD (vars : List (String × Variant)) (vid : String) : Int :=
  match alookup vars vid with
  | some v => varRightI v
  | none => 0

/-- The running maximum of rightmost affected positions over the first
`i + 1` entries of the ordered variant list, seeded with `-1`. -/
def runningMaxAt (vars : List (String × Variant)) (l : List (Nat × String)) (i : Nat) : Int :=
  ((l.take (i + 1)).map (fun e => rightD vars e.2)).foldl max (-1)

/-- The index-advance loop of `add_novel_var` (lines 411-427): starting from
the lower bound, move right while the entry position equals the insertion
position and the precedence rule tells the new variant to sort after the
entry.  `none` models the duplicate-insertion assertion failure and the
`KeyError` on a dangling id. -/
def novelInsertIdx (vars : List (String × Variant)) (lst : List (Nat × String))
    (vt : VarType) (vpos : Nat) (vdata : String) (i : Nat) : Option Nat :=
  match h : lst[i]? with
  | none => some i
  | some e =>
    if e.1 > vpos then some i
    else if e.1 = vpos then
      match alookup vars e.2 with
      | none => none
      | some v =>
        if v.type = vt ∧ v.data = vdata then none
        else if v.type ≠ vt then
          if vt = VarType.insertion then some i
          else if vt = VarType.single ∧ v.type = VarType.deletion then some i
          else novelInsertIdx vars lst vt vpos vdata (i + 1)
        else if pyStrLt vdata v.data then some i
        else novelInsertIdx vars lst vt vpos vdata (i + 1)
    else novelInsertIdx vars lst vt vpos vdata (i + 1)
termination_by lst.length - i
decreasing_by
  all_goals
    have hi : i < lst.length := (List.getElem?_eq_some.mp h).1
    omega

/-- `add_novel_var` (lines 405-432): find the insertion index, mint the id
`"nv" ++ count`, check it is fresh, register the variant and insert the
`(position, id)` pair.  Returns the updated catalog, ordered list, counter
and the minted id; `none` models an assertion failure. -/
def add_novel_var (vars : List (String × Variant)) (lst : List (Nat × String))
    (cnt : Nat) (vt : VarType) (vpos : Nat) (vdata : String) :
    Option (List (String × Variant) × List (Nat × String) × Nat × String) :=
  (novelInsertIdx vars lst vt vpos vdata (lower_bound lst vpos)).bind fun idx =>
    let var_id := "nv" ++ toString cnt
    match alookup vars var_id with
    | some _ => none
    | none =>
      some ((var_id, ⟨vt, vpos, vdata⟩) :: vars, lst.insertIdx idx (vpos, var_id),
            cnt + 1, var_id)

/-- One requested novel-variant insertion. -/
structure NovelReq where
  vt : VarType
  vpos : Nat
  vdata : String
deriving DecidableEq, Repr

/-- The per-locus catalog state threaded through `add_novel_var` calls. -/
structure CatState where
  vars : List (String × Variant)
  varList : List (Nat × String)
  count : Nat
deriving DecidableEq, Repr

/-- Record of one successful mint: the catalog and counter as they were when
the id was minted, and the minted id. -/
structure MintRec where
  varsBefore : List (String × Variant)
  countBefore : Nat
  mintedId : String
deriving DecidableEq, Repr

/-- One `add_novel_var` call on the threaded state, also reporting the mint.
In the source an assertion failure aborts the run, so no later state exists;
modelling the failed call as a no-op keeps every state a successful call can
see identical to the source's. -/
def novelStepTrace (s : CatState) (r : NovelReq) : CatState × Option MintRec :=
  match add_novel_var s.vars s.varList s.count r.vt r.vpos r.vdata with
  | none => (s, none)
  | some (v', l', c', vid) => (⟨v', l', c'⟩, some ⟨s.vars, s.count, vid⟩)

/-- One `add_novel_var` call on the threaded state. -/
def novelStep (s : CatState) (r : NovelReq) : CatState :=
  (novelStepTrace s r).1

/-- A sequence of `add_novel_var` calls. -/
def runNovel (s : CatState) (reqs : List NovelReq) : CatState :=
  reqs.foldl novelStep s

/-- The mints performed by a sequence of `add_novel_var` calls, in order. -/
def runNovelTrace (s : CatState) : List NovelReq → List MintRec
  | [] => []
  | r :: rs =>
    match novelStepTrace s r with
    | (s', none) => runNovelTrace s' rs
    | (s', some m) => m :: runNovelTrace s' rs

/-- The ordered `(position, id)` sequence is sorted by position
(ties broken by insertion order, hence non-strict). -/
def SortedByPos (l : List (Nat × String)) : Prop :=
  List.Pairwise (fun a b : Nat × String => a.1 ≤ b.1) l

instance : DecidablePred SortedByPos := fun l =>
  inferInstanceAs (Decidable (List.Pairwise _ l))

/-- The two-deletion catalog refuting C7 as stated: `d1 = deletion [0,10)`
(rightmost 9) precedes `d2 = deletion [1,2)` (rightmost 1). -/
def c7vars : List (String × Variant) :=
  [("d1", ⟨VarType.deletion, 0, "10"⟩), ("d2", ⟨VarType.deletion, 1, "1"⟩)]

/-- Ordered variant list of the C7 counterexample catalog. -/
def c7list : List (Nat × String) := [(0, "d1"), (1, "d2")]

/-- The maxrights table the source computes for the C7 counterexample. -/
def c7m : List (String × Int) := [("d1", 9), ("d2", 9)]

/-- The span test of `add_count`'s backward scan (lines 678-679):
`(var_left >= left and var_left <= right) or
 (var_right >= left and var_right <= right)`. -/
def spanOverlap (v : Variant) (left right : Nat) : Bool :=
  (decide (left ≤ v.pos) && decide (v.pos ≤ right))
  || (decide ((left : Int) ≤ varRightI v) && decide (varRightI v ≤ (right : Int)))

/-- One iteration of `add_count`'s backward catalog scan (lines 664-681) at
index `idx`, with `next` the scan of the remaining lower indices: skip novel
ids, ids embedded in the signature and unlinked ids; stop (`some ∅`) once the
cached maxright falls below the left anchor; otherwise collect the linked
alleles of variants overlapping the anchor span.  `none` models the
`KeyError` on an id missing from `gene_vars`. -/
def addCountStep (links : List (String × List String))
    (geneVars : List (String × Variant)) (maxrights : List (String × Int))
    (varList : List (Nat × String)) (hts : List String) (left right : Nat)
    (idx : Nat) (next : Option (Finset String)) : Option (Finset String) :=
  match varList[idx]? with
  | none => some ∅
  | some e =>
    if startsWithNv e.2 ∨ e.2 ∈ hts then next
    else
      match alookup links e.2 with
      | none => next
      | some als =>
        let body : Option (Finset String) :=
          match alookup geneVars e.2 with
          | none => none
          | some v =>
            next.map (fun tl =>
              if spanOverlap v left right then als.toFinset ∪ tl else tl)
        match alookup maxrights e.2 with
        | some mr => if mr < (left : Int) then some ∅ else body
        | none => body

/-- `add_count`'s backward catalog scan from index `idx` down to 0. -/
def addCountScan (links : List (String × List String))
    (geneVars : List (String × Variant)) (maxrights : List (String × Int))
    (varList : List (Nat × String)) (hts : List String) (left right : Nat) :
    Nat → Option (Finset String)
  | 0 => addCountStep links geneVars maxrights varList hts left right 0 (some ∅)
  | j + 1 => addCountStep links geneVars maxrights varList hts left right (j + 1)
      (addCountScan links geneVars maxrights varList hts left right j)

/-- The compatible-allele set computed by `add_count` (lines 637-688) for a
signature with anchors `left`/`right` and embedded variant list `mid`: start
from all non-reference alleles, intersect with the linked-allele set of every
non-novel linked embedded variant, subtract the alleles collected by the
backward scan, and intersect with the tracked per-read candidate pool.  (The
`base_fname == "genome"` single-allele special case at lines 638-641, which
bypasses this computation, is not modelled.) -/
def add_count_alleles (genes : Finset String) (refAllele : String)
    (links : List (String × List String)) (geneVars : List (String × Variant))
    (varList : List (Nat × String)) (maxrights : List (String × Int))
    (countKeys : Finset String) (left : Nat) (mid : List String) (right : Nat) :
    Option (Finset String) :=
  let alleles0 := genes.erase refAllele
  let alleles1 := mid.foldl (fun s vid =>
    if startsWithNv vid then s
    else match alookup links vid with
      | none => s
      | some als => s ∩ als.toFinset) alleles0
  let start := min (lower_bound varList (right + 1)) (varList.length - 1)
  (addCountScan links geneVars maxrights varList mid left right start).map
    (fun tmp => (alleles1 \ tmp) ∩ countKeys)

/-- Comparison-op kinds (`"match"`, `"mismatch"`, `"insertion"`, `"deletion"`). -/
inductive CmpType where
  | matchOp
  | mismatch
  | insertion
  | deletion
deriving DecidableEq, Repr

/-- One comparison op `[type, left, length(, var_id)]`.  Match ops are
3-element lists in the source, so `varId` is `none` for them. -/
structure Cmp where
  type : CmpType
  left : Nat
  length : Nat
  varId : Option String
deriving DecidableEq, Repr

/-- The pileup consensus support set at a reference position
(`mpileup[p][0]`; the per-symbol counts `mpileup[p][1]` are unused by the
embedded operations). -/
def supportAt (mp : List (List Char)) (p : Nat) : List Char :=
  (mp[p]?).getD []

/-- The catalog scan shared by `error_correct` (lines 159-169 and 204-214)
and the decoder (lines 959-972): from index `i`, while the entry position
equals `p`, look for a known `single` variant whose payload equals the read
base; `some "unknown"` when none is found, `none` for the `KeyError` on a
dangling id. -/
def findSingleVar (vars : List (String × Variant)) (varList : List (Nat × String))
    (p : Nat) (bp : Char) (i : Nat) : Option String :=
  match h : varList[i]? with
  | none => some "unknown"
  | some e =>
    if e.1 > p then some "unknown"
    else if e.1 = p then
      match alookup vars e.2 with
      | none => none
      | some v =>
        if v.type = VarType.single ∧ v.data = Char.toString bp then some e.2
        else findSingleVar vars varList p bp (i + 1)
    else findSingleVar vars varList p bp (i + 1)
termination_by varList.length - i
decreasing_by
  all_goals
    have hi : i < varList.length := (List.getElem?_eq_some.mp h).1
    omega

/-- The catalog scan starting from the lower bound of the position. -/
def searchSingleVar (vars : List (String × Variant)) (varList : List (Nat × String))
    (p : Nat) (bp : Char) : Option String :=
  findSingleVar vars varList p bp (lower_bound varList p)

/-- The `for j in range(length)` loop of `error_correct`'s match branch
(lines 141-179), written as recursion on `j` returning the middle list from
`j` on: skip out-of-range offsets; where the pileup support set is non-empty
and excludes the read base, rewrite the base (to the single supported base,
or `'N'` when support is ambiguous), emit the pending match run and a new
mismatch op tagged by catalog search, and count one correction.  `none`
models the asserts (`read_bp != ref_bp`, pileup coverage) and `KeyError`s. -/
def pmGo (refSeq : List Char) (mp : List (List Char))
    (vars : List (String × Variant)) (varList : List (Nat × String))
    (left rpos length : Nat) (j lastJ : Nat) (seq : List Char) :
    Option (List Cmp × List Char × Nat) :=
  if hj : j < length then
    if rpos + j ≥ seq.length ∨ left + j ≥ refSeq.length then
      pmGo refSeq mp vars varList left rpos length (j + 1) lastJ seq
    else
      match seq[rpos + j]?, refSeq[left + j]? with
      | some rb, some fb =>
        if left + j < mp.length then
          match mp[left + j]? with
          | some ntset =>
            match ntset with
            | [] => pmGo refSeq mp vars varList left rpos length (j + 1) lastJ seq
            | c :: cs =>
              if rb ∈ c :: cs then
                pmGo refSeq mp vars varList left rpos length (j + 1) lastJ seq
              else
                let newBp := if 1 < (c :: cs).length then 'N' else c
                let seq' := seq.set (rpos + j) newBp
                if newBp = fb then none
                else
                  (if newBp = 'N' then some "unknown"
                   else searchSingleVar vars varList (left + j) newBp).bind fun tag =>
                  (pmGo refSeq mp vars varList left rpos length (j + 1) (j + 1) seq').map
                    fun out =>
                      ((if lastJ < j then
                          [⟨CmpType.matchOp, left + lastJ, j - lastJ, none⟩]
                        else []) ++ ⟨CmpType.mismatch, left + j, 1, some tag⟩ :: out.1,
                       out.2.1, out.2.2 + 1)
          | none => none
        else none
      | _, _ => none
  else
    some (if lastJ < length then
            [⟨CmpType.matchOp, left + lastJ, length - lastJ, none⟩]
          else [], seq, 0)
termination_by length - j

/-- The match branch of `error_correct` for one match op, including the
`assert len(middle_cmp_list) > 0` (line 181). -/
def processMatch (refSeq : List Char) (mp : List (List Char))
    (vars : List (String × Variant)) (varList : List (Nat × String))
    (left rpos length : Nat) (seq : List Char) :
    Option (List Cmp × List Char × Nat) :=
  (pmGo refSeq mp vars varList left rpos length 0 0 seq).bind fun out =>
    if out.1.isEmpty then none else some out

/-- The mismatch branch of `error_correct` (lines 184-222): when the support
set is non-empty and excludes the read base, rewrite it; `'N'` retags the op
`unknown`, the reference base turns the op into a 1-long match and counts one
correction, any other base retags by catalog search. -/
def correctMismatch (refSeq : List Char) (mp : List (List Char))
    (vars : List (String × Variant)) (varList : List (Nat × String))
    (op : Cmp) (seq : List Char) (rpos : Nat) :
    Option (List Cmp × List Char × Nat) :=
  match seq[rpos]?, refSeq[op.left]? with
  | some rb, some fb =>
    if op.left < mp.length then
      match mp[op.left]? with
      | some ntset =>
        match ntset with
        | [] => some ([op], seq, 0)
        | c :: cs =>
          if rb ∈ c :: cs then some ([op], seq, 0)
          else
            let newBp := if 1 < (c :: cs).length then 'N' else c
            let seq' := seq.set rpos newBp
            if newBp = 'N' then some ([{ op with varId := some "unknown" }], seq', 0)
            else if newBp = fb then some ([⟨CmpType.matchOp, op.left, 1, none⟩], seq', 1)
            else
              (searchSingleVar vars varList op.left newBp).map fun tag =>
                ([{ op with varId := some tag }], seq', 0)
      | none => none
    else none
  | _, _ => none

/-- One iteration of `error_correct`'s main loop: dispatch on the op type
(`assert type == "mismatch"` makes any other type fatal). -/
def correctOne (refSeq : List Char) (mp : List (List Char))
    (vars : List (String × Variant)) (varList : List (Nat × String))
    (op : Cmp) (seq : List Char) (rpos : Nat) :
    Option (List Cmp × List Char × Nat) :=
  match op.type with
  | CmpType.matchOp => processMatch refSeq mp vars varList op.left rpos op.length seq
  | CmpType.mismatch => correctMismatch refSeq mp vars varList op seq rpos
  | _ => none

/-- `error_correct`'s main loop (lines 134-223): process each op in turn
(splicing each op's replacement segment in place of it and moving past it,
which is concatenation in return style), advancing the read cursor by the
op's length; `assert length > 0` first, and stop — leaving the remaining
ops untouched — once an op's position reaches the reference end. -/
def correctLoop (refSeq : List Char) (mp : List (List Char))
    (vars : List (String × Variant)) (varList : List (Nat × String)) :
    List Cmp → List Char → Nat → Option (List Cmp × List Char × Nat)
  | [], seq, _ => some ([], seq, 0)
  | op :: rest, seq, rpos =>
    if op.length = 0 then none
    else if refSeq.length ≤ op.left then some (op :: rest, seq, 0)
    else
      (correctOne refSeq mp vars varList op seq rpos).bind fun out1 =>
        (correctLoop refSeq mp vars varList rest out1.2.1 (rpos + op.length)).map
          fun out2 => (out1.1 ++ out2.1, out2.2.1, out1.2.2 + out2.2.2)

/-- The match-coalescing pass of `error_correct` (lines 226-235). -/
def combineMatches : List Cmp → List Cmp
  | a :: b :: rest =>
    if a.type = CmpType.matchOp ∧ b.type = CmpType.matchOp then
      combineMatches (⟨CmpType.matchOp, a.left, a.length + b.length, none⟩ :: rest)
    else a :: combineMatches (b :: rest)
  | l => l
termination_by l => l.length

/-- `error_correct` (lines 119-243): correct each op against the pileup,
then coalesce adjacent matches; returns the corrected comparison list, the
corrected read and the correction count. -/
def error_correct (refSeq : List Char) (seq : List Char) (rpos : Nat)
    (mp : List (List Char)) (vars : List (String × Variant))
    (varList : List (Nat × String)) (cmpList : List Cmp) :
    Option (List Cmp × List Char × Nat) :=
  (correctLoop refSeq mp vars varList cmpList seq rpos).map fun out =>
    (combineMatches out.1, out.2.1, out.2.2)

/-- Total read length consumed by a comparison list. -/
def cmpLen (l : List Cmp) : Nat :=
  (l.map Cmp.length).sum

/-- Head check of the consensus property as the spec states it: a mismatch
op's read base (the read character at the op's read offset) belongs to the
pileup support set at the op's position whenever that set is non-empty. -/
def misOkStrict (mp : List (List Char)) (seq : List Char) (rpos : Nat) (op : Cmp) : Bool :=
  match op.type with
  | CmpType.mismatch =>
    (supportAt mp op.left).isEmpty
    || (match seq[rpos]? with
        | some b => decide (b ∈ supportAt mp op.left)
        | none => true)
  | _ => true

/-- The consensus property the spec states, as written, checked over a whole
comparison list walked with the read cursor. -/
def consensusStrict (mp : List (List Char)) (seq : List Char) :
    Nat → List Cmp → Bool
  | _, [] => true
  | rpos, op :: rest =>
    misOkStrict mp seq rpos op && consensusStrict mp seq (rpos + op.length) rest

/-- Head check of the consensus property the code actually guarantees: as
`misOkStrict` but also accepting the ambiguous base `'N'` (which the
corrector writes when the support set has two or more members). -/
def misOkN (mp : List (List Char)) (seq : List Char) (rpos : Nat) (op : Cmp) : Bool :=
  match op.type with
  | CmpType.mismatch =>
    (supportAt mp op.left).isEmpty
    || (match seq[rpos]? with
        | some b => decide (b ∈ supportAt mp op.left) || decide (b = 'N')
        | none => true)
  | _ => true

/-- The consensus property the code guarantees, checked over a whole
comparison list walked with the read cursor. -/
def consensusOkN (mp : List (List Char)) (seq : List Char) :
    Nat → List Cmp → Bool
  | _, [] => true
  | rpos, op :: rest =>
    misOkN mp seq rpos op && consensusOkN mp seq (rpos + op.length) rest

/-- Ordered-insert into a sorted duplicate-free list, the canonical
representation chosen here for Python string sets (`set.add`). -/
def insertSortedStr (x : String) : List String → List String
  | [] => [x]
  | y :: t =>
    if x = y then y :: t
    else if pyStrLt x y then x :: y :: t
    else y :: insertSortedStr x t

/-- `allele_vars[allele].add(var)` with insert-if-absent (lines 94-96):
append a fresh key at the end (Python dict insertion order), update an
existing one in place. -/
def avInsert : List (String × List String) → String → String → List (String × List String)
  | [], allele, var => [(allele, [var])]
  | (a, vs) :: t, allele, var =>
    if a = allele then (a, insertSortedStr var vs) :: t
    else (a, vs) :: avInsert t allele var

/-- The candidate-pool filter of `get_rep_alleles` (line 92):
`in_alleles != None and allele not in in_alleles` skips the allele. -/
def poolOk (inAlleles : Option (List String)) (a : String) : Prop :=
  match inAlleles with
  | some pool => a ∈ pool
  | none => True

instance (inAlleles : Option (List String)) (a : String) : Decidable (poolOk inAlleles a) :=
  match inAlleles with
  | some pool => inferInstanceAs (Decidable (a ∈ pool))
  | none => Decidable.isTrue trivial

/-- The inner loop of `get_rep_alleles` (lines 91-96) over one variant's
linked alleles. -/
def avAddAlleles (inAlleles : Option (List String)) (var : String) :
    List (String × List String) → List String → List (String × List String)
  | acc, [] => acc
  | acc, allele :: rest =>
    avAddAlleles inAlleles var
      (if poolOk inAlleles allele then avInsert acc allele var else acc) rest

/-- `allele_vars` of `get_rep_alleles` (lines 87-96): for each linkage entry
whose variant is exonic, add the variant to each (pool-admitted) allele's
variant set. -/
def buildAlleleVars (links : List (String × List String)) (exonVars : List String)
    (inAlleles : Option (List String)) : List (String × List String) :=
  links.foldl
    (fun acc e => if e.1 ∈ exonVars then avAddAlleles inAlleles e.1 acc e.2 else acc) []

/-- `allele_groups[vars].append(allele)` with insert-if-absent
(lines 98-103); the group key is the allele's variant set. -/
def groupInsert : List (List String × List String) → List String → String →
    List (List String × List String)
  | [], key, allele => [(key, [allele])]
  | (k, mem) :: t, key, allele =>
    if k = key then (k, mem ++ [allele]) :: t
    else (k, mem) :: groupInsert t key allele

/-- `allele_groups` of `get_rep_alleles`: group the alleles by their variant
set, in first-seen order. -/
def allele_groups (av : List (String × List String)) :
    List (List String × List String) :=
  av.foldl (fun gs e => groupInsert gs e.2 e.1) []

/-- The representative-selection loop of `get_rep_alleles` (lines 105-113):
the first member of each group is its representative; returns
(`allele_reps` as member→rep pairs, `allele_rep_groups` as rep→members
pairs).  An empty group (impossible by construction, asserted in the
source) contributes nothing. -/
def buildReps : List (List String × List String) →
    List (String × String) × List (String × List String)
  | [] => ([], [])
  | g :: rest =>
    match g.2 with
    | [] => buildReps rest
    | rep :: _ =>
      ((g.2.map (fun m => (m, rep))) ++ (buildReps rest).1,
       (rep, g.2) :: (buildReps rest).2)

/-- `get_rep_alleles` (lines 86-115). -/
def get_rep_alleles (links : List (String × List String)) (exonVars : List String)
    (inAlleles : Option (List String)) :
    List (String × String) × List (String × List String) :=
  buildReps (allele_groups (buildAlleleVars links exonVars inAlleles))

/-- The alleles `get_rep_alleles` actually draws its groups from: pool
members carrying at least one exonic variant in the linkage table. -/
def inRepPool (links : List (String × List String)) (exonVars : List String)
    (inAlleles : Option (List String)) (a : String) : Prop :=
  ∃ e ∈ links, e.1 ∈ exonVars ∧ a ∈ e.2 ∧ poolOk inAlleles a

instance (links : List (String × List String)) (exonVars : List String)
    (inAlleles : Option (List String)) (a : String) :
    Decidable (inRepPool links exonVars inAlleles a) :=
  inferInstanceAs (Decidable (∃ e ∈ links, _ ∧ _ ∧ _))

/-- A haplotype signature `left-…-right`: the two integer anchors and the
embedded variant ids (the hyphen-joined string form of the source, kept
structured). -/
structure Ht where
  left : Nat
  mids : List String
  right : Nat
deriving DecidableEq, Repr

/-- The inter-mate gap of `choose_pairs` (lines 707-710):
`r_left - l_right - 1` when the left signature ends first, otherwise
`l_left - r_right - 1`. -/
def interDist (l r : Ht) : Int :=
  if l.right < r.right then (r.left : Int) - (l.right : Int) - 1
  else (l.left : Int) - (r.right : Int) - 1

/-- The pair loop of `choose_pairs` (lines 700-717): track the best
distance-to-expected and every pair achieving it (strictly better resets the
list, ties append). -/
def pickLoop (expected : Int) : List (Ht × Ht) → Int → List (Ht × Ht) → Int × List (Ht × Ht)
  | [], best, picked => (best, picked)
  | p :: ps, best, picked =>
    let cur := |expected - interDist p.1 p.2|
    if cur < best then pickLoop expected ps cur [p]
    else if cur = best then pickLoop expected ps best (picked ++ [p])
    else pickLoop expected ps best picked

/-- The nested iteration order of `choose_pairs`' two loops. -/
def allPairs (ls rs : List Ht) : List (Ht × Ht) :=
  ls.flatMap (fun l => rs.map (fun r => (l, r)))

/-- `set.add` over the list model of a Python set of signatures. -/
def addHt (s : List Ht) (h : Ht) : List Ht :=
  if h ∈ s then s else s ++ [h]

/-- `sys.maxsize` on a 64-bit build: `2^63 - 1`, written as a literal. -/
def sysMaxsize : Int := 9223372036854775807

/-- `choose_pairs` (lines 691-727): when both sides are non-empty and one
has at least two signatures, keep exactly the signature pairs whose
inter-mate gap is closest to the expected insert distance (initial best is
`sys.maxsize`, modelled as `2^63 - 1`) and rebuild both sides from the
picked pairs; otherwise return both sides unchanged.  `none` models the
`assert len(picked) > 0`. -/
def choose_pairs (expected : Int) (ls rs : List Ht) : Option (List Ht × List Ht) :=
  if 0 < ls.length ∧ 0 < rs.length ∧ 2 ≤ max ls.length rs.length then
    if (pickLoop expected (allPairs ls rs) sysMaxsize []).2 = [] then none
    else some ((pickLoop expected (allPairs ls rs) sysMaxsize []).2.foldl
                 (fun s p => addHt s p.1) [],
               (pickLoop expected (allPairs ls rs) sysMaxsize []).2.foldl
                 (fun s p => addHt s p.2) [])
  else some (ls, rs)

/-- Concrete left-mate signatures for evaluating `choose_pairs`. -/
def c8ls : List Ht := [⟨0, [], 5⟩, ⟨0, [], 20⟩]

/-- Concrete right-mate signatures for evaluating `choose_pairs`. -/
def c8rs : List Ht := [⟨16, [], 30⟩]

/-- The digit-accumulation loop of the MD number parse (lines 923-928),
with fuel as the first recursion argument: the loop leaves `MD_str_pos`
strictly increasing and bounded by `len(MD)`, so `md.length` steps always
suffice and running out of fuel coincides with the loop's own exit. -/
def mdDigitsGo (md : List Char) : Nat → Nat → Nat → Nat × Nat
  | 0, pos, num => (num, pos)
  | fuel + 1, pos, num =>
    match md[pos]? with
    | some c =>
      if c.isDigit then mdDigitsGo md fuel (pos + 1) (num * 10 + (c.toNat - 48))
      else (num, pos)
    | none => (num, pos)

/-- One MD number parse (lines 920-929): when the current MD character is a
digit, fold the whole digit run into `MD_len`, otherwise leave the state
unchanged; the initial read past the end of MD is an `IndexError`
(`none`).  Returns the new `MD_len` and `MD_str_pos`. -/
def mdParseStep (md : List Char) (pos mdLen : Nat) : Option (Nat × Nat) :=
  match md[pos]? with
  | none => none
  | some c =>
    if c.isDigit then
      let out := mdDigitsGo md md.length (pos + 1) (c.toNat - 48)
      some (mdLen + out.1, out.2)
    else some (mdLen, pos)

/-- The numeric value of an all-digit MD string, as the parse computes it. -/
def mdVal (md : List Char) : Nat :=
  md.foldl (fun a c => a * 10 + (c.toNat - 48)) 0

/-- Consuming the pending `Zs` entry in the `M` branch (lines 950-955): the
entry must be a substitution (`'S'`, asserted — `none` otherwise), its id is
taken, and the `Zs` cursor advances past it (plus the following entry's gap
when one exists). -/
def zsTakeS (zs : List (Nat × Char × String)) (zsI zsPos : Nat) :
    Option (String × Nat × Nat) :=
  match zs[zsI]? with
  | none => none
  | some e =>
    if e.2.1 = 'S' then
      some (e.2.2, zsI + 1,
            zsPos + 1 + (match zs[zsI + 1]? with | some e2 => e2.1 | none => 0))
    else none

/-- The `while True` decode loop of the CIGAR `M` branch (lines 918-984),
with fuel as the first recursion argument (the loop pushes `MD_len` up by at
least one per non-final iteration, so `length + 1` steps always suffice;
`none` on exhaustion): parse the next MD number unless resuming inside a
run, emit the trailing match op and stop once the run is covered, otherwise
emit the pending match op and a mismatch op — tagged from `Zs` or by the
catalog search (`assert MD_ref_base in "ACGT"` makes anything else fatal) —
and continue.  Returns the emitted ops and the final `MD_str_pos`,
`MD_len`, `Zs_i` and `Zs_pos`. -/
def mLoop (md seq : List Char) (vars : List (String × Variant))
    (varList : List (Nat × String)) (zs : List (Nat × Char × String))
    (rpos rightPos length : Nat) :
    Nat → Bool → Nat → Nat → Nat → Nat → Nat →
    Option (List Cmp × Nat × Nat × Nat × Nat)
  | 0, _, _, _, _, _, _ => none
  | fuel + 1, first, mdPos, mdLen, mdLenUsed, zsI, zsPos =>
    (if ¬first ∨ mdLen = 0 then mdParseStep md mdPos mdLen
     else some (mdLen, mdPos)).bind fun pr =>
      if length ≤ pr.1 then
        some ((if mdLenUsed < length then
                 [⟨CmpType.matchOp, rightPos + mdLenUsed, length - mdLenUsed, none⟩]
               else []),
              pr.2, pr.1 - length, zsI, zsPos)
      else
        match seq[rpos + pr.1]?, md[pr.2]? with
        | some readBase, some refBase =>
          if refBase = 'A' ∨ refBase = 'C' ∨ refBase = 'G' ∨ refBase = 'T' then
            (if rpos + pr.1 = zsPos ∧ zsI < zs.length then
               zsTakeS zs zsI zsPos
             else
               (searchSingleVar vars varList (rightPos + pr.1) readBase).map
                 fun tag => (tag, zsI, zsPos)).bind fun z =>
              let pre : List Cmp :=
                (if mdLenUsed < pr.1 then
                   [⟨CmpType.matchOp, rightPos + mdLenUsed, pr.1 - mdLenUsed, none⟩]
                 else []) ++ [⟨CmpType.mismatch, rightPos + pr.1, 1, some z.1⟩]
              if pr.1 + 1 = length then
                some (pre, pr.2 + 1, 0, z.2.1, z.2.2)
              else
                (mLoop md seq vars varList zs rpos rightPos length fuel false
                    (pr.2 + 1) (pr.1 + 1) (pr.1 + 1) z.2.1 z.2.2).map fun out =>
                  (pre ++ out.1, out.2)
          else none
        | _, _ => none

/-- The decoder's handling of one read whose CIGAR is the single run
`<length>M` with no softclip (lines 891-1003): `MD_str_pos`, `MD_len`, the
`Zs` cursor and `read_pos` start at zero (`Zs_pos` starts at the first `Zs`
entry's gap), `right_pos` starts at the alignment position, and the `M`
branch runs on an empty comparison list; when error correction is enabled
the produced ops pass through `error_correct` (the
`assert cmp_list_i < len(cmp_list)` makes an empty production fatal).
Returns the comparison list, the possibly corrected read and the correction
count. -/
def decodeMatchRead (ec : Bool) (refSeq seq : List Char) (mp : List (List Char))
    (vars : List (String × Variant)) (varList : List (Nat × String))
    (zs : List (Nat × Char × String)) (md : List Char) (pos length : Nat) :
    Option (List Cmp × List Char × Nat) :=
  (mLoop md seq vars varList zs 0 pos length (length + 1) true 0 0 0 0
      (match zs[0]? with | some e => e.1 | none => 0)).bind fun out =>
    if ec then
      if out.1 = [] then none
      else error_correct refSeq seq 0 mp vars varList out.1
    else some (out.1, seq, 0)

/-- The promotion of one comparison op (lines 1140-1167): a non-match op
tagged `unknown` is promoted to a novel catalog variant via `add_novel_var`
— a mismatch uses the read base as payload (and is skipped entirely when
that base is `'N'`), a deletion its length, an insertion the read slice —
and the op is retagged with the minted id.  The `var_count` tally
(lines 1168-1172), which no claim mentions, is not modelled.  `none` models
an `IndexError` on the read or an `add_novel_var` assertion failure. -/
def promoteOne (seq : List Char) (op : Cmp) (rpos : Nat) (st : CatState) :
    Option (Cmp × CatState) :=
  match op.type with
  | CmpType.matchOp => some (op, st)
  | ty =>
    if op.varId = some "unknown" then
      ((match ty with
        | CmpType.mismatch =>
          (match seq[rpos]? with
           | none => none
           | some b => some (if b = 'N' then none else some (Char.toString b)))
        | CmpType.deletion => some (some (toString op.length))
        | _ => some (some (String.mk ((seq.drop rpos).take op.length))))
          : Option (Option String)).bind
        fun data? =>
        match data? with
        | none => some (op, st)
        | some data =>
          let vt := match ty with
            | CmpType.mismatch => VarType.single
            | CmpType.deletion => VarType.deletion
            | _ => VarType.insertion
          (add_novel_var st.vars st.varList st.count vt op.left data).map fun out =>
            ({ op with varId := some out.2.2.2 }, ⟨out.1, out.2.1, out.2.2.1⟩)
    else some (op, st)

/-- The novel-variant promotion loop (lines 1137-1175): walk the comparison
list with the read cursor, promoting each op with `promoteOne`; the cursor
advances by the op's length except over deletions. -/
def promoteNovel (seq : List Char) :
    List Cmp → Nat → CatState → Option (List Cmp × CatState)
  | [], _, st => some ([], st)
  | op :: rest, rpos, st =>
    (promoteOne seq op rpos st).bind fun hd =>
      (promoteNovel seq rest
          (if op.type = CmpType.deletion then rpos else rpos + op.length)
          hd.2).map fun out => (hd.1 :: out.1, out.2)

/-- The pileup supports the read at offset `k` of a match run at `left` with
read cursor `rpos`: the offset is out of range (skipped by the scan), or the
position is covered by the pileup and the support set is empty or contains
the read base.  Under this condition `error_correct`'s match scan rewrites
nothing. -/
def pileupOkAt (mp : List (List Char)) (refSeq seq : List Char)
    (left rpos k : Nat) : Bool :=
  decide (seq.length ≤ rpos + k) || decide (refSeq.length ≤ left + k)
  || (decide (left + k < mp.length)
      && ((supportAt mp (left + k)).isEmpty
          || match seq[rpos + k]? with
             | some b => decide (b ∈ supportAt mp (left + k))
             | none => true))

/-- Reference and read for the C5 counterexample (identical sequences). -/
def c5seq : List Char := ['G', 'A']

/-- The adversarial pileup for the C5 counterexample: position 0 supports
only `'T'`, excluding the reference base. -/
def c5mp : List (List Char) := [['T'], ['A']]

/-- One decoded read as it reaches the quality gates: its mate side, the
`right_pos` reached by the CIGAR walk, the correction count summed over its
match runs, the likely-misalignment flag, its comparison list and its
(possibly corrected) sequence. -/
structure ReadRec where
  isLeft : Bool
  rightPos : Nat
  numErrorCorrection : Nat
  likelyMisalignment : Bool
  cmpList : List Cmp
  seq : List Char
deriving DecidableEq, Repr

/-- The per-locus state the accepted reads contribute to: the variant
catalog, the accepted-read count, and the two sides' positive haplotype
string sets. -/
structure TState where
  cat : CatState
  numReads : Nat
  leftHts : List String
  rightHts : List String
deriving DecidableEq, Repr

/-- `set.add` over the list model of a Python set of strings. -/
def addStr (s : List String) (x : String) : List String :=
  if x ∈ s then s else s ++ [x]

/-- The unknown/novel mismatch scrub (lines 1362-1379): rebuild the
comparison list, coalescing each match into a preceding match and turning
every mismatch tagged `unknown` or with a novel (`nv`-prefixed) id into an
extension of the preceding match (or a fresh 1-long match); all other ops
pass through.  The accumulator is kept reversed so the source's
`cmp_list2[-1]` is its head; a mismatch op with no tag is the source's
`IndexError` (`none`). -/
def cmpList2Go : List Cmp → List Cmp → Option (List Cmp)
  | acc, [] => some acc.reverse
  | acc, c :: rest =>
    match c.type with
    | CmpType.matchOp =>
      match acc with
      | a :: t =>
        if a.type = CmpType.matchOp then
          cmpList2Go ({ a with length := a.length + c.length } :: t) rest
        else cmpList2Go (c :: a :: t) rest
      | [] => cmpList2Go [c] rest
    | CmpType.mismatch =>
      match c.varId with
      | none => none
      | some v =>
        if v = "unknown" ∨ startsWithNv v then
          match acc with
          | a :: t =>
            if a.type = CmpType.matchOp then
              cmpList2Go ({ a with length := a.length + 1 } :: t) rest
            else cmpList2Go (⟨CmpType.matchOp, c.left, 1, none⟩ :: a :: t) rest
          | [] => cmpList2Go [⟨CmpType.matchOp, c.left, 1, none⟩] rest
        else cmpList2Go (c :: acc) rest
    | _ => cmpList2Go (c :: acc) rest

/-- The mid-window haplotype ids (lines 1397-1403): the variant ids of the
non-match ops, in order; an untagged non-match op is the source's
`IndexError` (`none`). -/
def midHt : List Cmp → Option (List String)
  | [] => some []
  | c :: rest =>
    match c.type with
    | CmpType.matchOp => midHt rest
    | _ =>
      match c.varId with
      | none => none
      | some v => (midHt rest).map fun t => v :: t

/-- One read's post-decode processing (lines 1128-1175, 1179 and
1362-1417): the three rejection gates apply in source order — reference
overrun, correction count above `max(1, num_editdist)`, likely
misalignment — and a gated read leaves the state untouched (`continue`).
An accepted read has its unknown ops promoted to novel variants, bumps the
accepted-read count, and adds its haplotype strings — each left alternative
plus the mid-window ids plus each right alternative, joined with `-` — to
its mate side's positive set.  The ambiguity-window computation
(`typing_common.identify_ambigious_diffs`, outside this module) is
abstracted as the parameter `iad`, returning the window bounds and the two
alternative lists (already split at `-`); the result holds for every such
function.  `none` models an assertion failure or `IndexError`
downstream. -/
def processRead (refLen numEditdist : Nat)
    (iad : List Cmp → Nat × Nat × List (List String) × List (List String))
    (st : TState) (r : ReadRec) : Option TState :=
  if refLen < r.rightPos then some st
  else if max 1 numEditdist < r.numErrorCorrection then some st
  else if r.likelyMisalignment then some st
  else
    (promoteNovel r.seq r.cmpList 0 st.cat).bind fun pr =>
      (cmpList2Go [] pr.1).bind fun cl2 =>
        let w := iad cl2
        (midHt ((cl2.drop w.1).take (w.2.1 + 1 - w.1))).map fun mid =>
          let hts := w.2.2.1.flatMap fun la =>
            w.2.2.2.filterMap fun ra =>
              let ht := la ++ mid ++ ra
              if ht.isEmpty then none
              else some (String.intercalate "-" ht)
          if r.isLeft then
            { st with cat := pr.2, numReads := st.numReads + 1,
                      leftHts := hts.foldl addStr st.leftHts }
          else
            { st with cat := pr.2, numReads := st.numReads + 1,
                      rightHts := hts.foldl addStr st.rightHts }

/-- The per-read loop over a batch of decoded reads: an abort (`none`)
stops the run, a gated read is skipped, and processing continues with the
updated state. -/
def processReads (refLen numEditdist : Nat)
    (iad : List Cmp → Nat × Nat × List (List String) × List (List String))
    (st : TState) : List ReadRec → Option TState
  | [] => some st
  | r :: rest =>
    (processRead refLen numEditdist iad st r).bind fun st' =>
      processReads refLen numEditdist iad st' rest

/-! ## Theorems -/

/-! ### Catalog lemmas (C3, C4) -/

theorem mem_of_mem_insertIdx {α : Type} {y x : α} :
    ∀ {n : Nat} {l : List α}, y ∈ List.insertIdx n x l → y = x ∨ y ∈ l := by
  intro n
  induction n with
  | zero =>
    intro l h
    rw [show List.insertIdx 0 x l = x :: l from rfl] at h
    rcases List.mem_cons.mp h with h | h
    · exact Or.inl h
    · exact Or.inr h
  | succ n ih =>
    intro l h
    cases l with
    | nil =>
      rw [show List.insertIdx (n + 1) x ([] : List α) = [] from rfl] at h
      cases h
    | cons a t =>
      rw [show List.insertIdx (n + 1) x (a :: t) = a :: List.insertIdx n x t from rfl] at h
      rcases List.mem_cons.mp h with h | h
      · exact Or.inr (h ▸ List.mem_cons_self a t)
      · rcases ih h with h' | h'
        · exact Or.inl h'
        · exact Or.inr (List.mem_cons_of_mem a h')

theorem sortedInsertIdx (x : Nat × String) :
    ∀ (l : List (Nat × String)) (idx : Nat), SortedByPos l →
    (∀ j (hj : j < l.length), j < idx → (l[j]).1 ≤ x.1) →
    (∀ j (hj : j < l.length), idx ≤ j → x.1 ≤ (l[j]).1) →
    SortedByPos (List.insertIdx idx x l) := by
  intro l
  induction l with
  | nil =>
    intro idx _ _ _
    cases idx with
    | zero => exact List.pairwise_singleton _ _
    | succ n => simp [List.insertIdx, SortedByPos]
  | cons a t ih =>
    intro idx hs hlo hhi
    cases idx with
    | zero =>
      refine List.pairwise_cons.mpr ⟨?_, hs⟩
      intro y hy
      rcases List.mem_iff_get.mp hy with ⟨⟨j, hj⟩, rfl⟩
      exact hhi j hj (Nat.zero_le j)
    | succ n =>
      have hs' := List.pairwise_cons.mp hs
      refine List.pairwise_cons.mpr ⟨?_, ?_⟩
      · intro y hy
        rcases mem_of_mem_insertIdx hy with rfl | hy'
        · exact hlo 0 (Nat.succ_pos t.length) (Nat.succ_pos n)
        · exact hs'.1 y hy'
      · refine ih n hs'.2 ?_ ?_
        · intro j hj hjn
          exact hlo (j + 1) (Nat.succ_lt_succ hj) (Nat.succ_lt_succ hjn)
        · intro j hj hnj
          exact hhi (j + 1) (Nat.succ_lt_succ hj) (Nat.succ_le_succ hnj)

theorem lower_bound_lt (l : List (Nat × String)) (p : Nat) (j : Nat) (hj : j < l.length)
    (h : j < lower_bound l p) : (l[j]).1 < p := by
  have hf := List.not_of_lt_findIdx (h : j < List.findIdx (fun e => p ≤ e.1) l)
  have : ¬(p ≤ (l[j]).1) := by
    simpa using hf
  omega

theorem novelInsertIdx_bounds (vars : List (String × Variant)) (lst : List (Nat × String))
    (vt : VarType) (vpos : Nat) (vdata : String) :
    ∀ (fuel i idx : Nat), lst.length ≤ i + fuel →
    novelInsertIdx vars lst vt vpos vdata i = some idx →
    (∀ j (hj : j < lst.length), j < i → (lst[j]).1 ≤ vpos) →
    ((∀ j (hj : j < lst.length), j < idx → (lst[j]).1 ≤ vpos) ∧
     (∀ (hi : idx < lst.length), vpos ≤ (lst[idx]).1)) := by
  intro fuel
  induction fuel with
  | zero =>
    intro i idx hfuel h hinv
    rw [novelInsertIdx] at h
    have hnone : lst[i]? = none := List.getElem?_eq_none_iff.mpr (by omega)
    rw [hnone] at h
    cases h
    exact ⟨hinv, fun hi => absurd hi (by omega)⟩
  | succ fuel ih =>
    intro i idx hfuel h hinv
    rw [novelInsertIdx] at h
    split at h
    case h_1 hget =>
      cases h
      have := List.getElem?_eq_none_iff.mp hget
      exact ⟨hinv, fun hi => absurd hi (by omega)⟩
    case h_2 e hget =>
      have hi : i < lst.length := (List.getElem?_eq_some.mp hget).1
      have hei : lst[i] = e := (List.getElem?_eq_some.mp hget).2
      have hnext : (∀ j (hj : j < lst.length), j < i + 1 → (lst[j]).1 ≤ vpos) →
          novelInsertIdx vars lst vt vpos vdata (i + 1) = some idx →
          ((∀ j (hj : j < lst.length), j < idx → (lst[j]).1 ≤ vpos) ∧
           (∀ (hi : idx < lst.length), vpos ≤ (lst[idx]).1)) := by
        intro hinv' h'
        exact ih (i + 1) idx (by omega) h' hinv'
      have hstop : ∀ (hle : vpos ≤ e.1), some i = some idx →
          ((∀ j (hj : j < lst.length), j < idx → (lst[j]).1 ≤ vpos) ∧
           (∀ (hi : idx < lst.length), vpos ≤ (lst[idx]).1)) := by
        intro hle hsome
        cases hsome
        exact ⟨hinv, fun _ => hei ▸ hle⟩
      have hskip : ¬(vpos < e.1) →
          (∀ j (hj : j < lst.length), j < i + 1 → (lst[j]).1 ≤ vpos) := by
        intro hlt j hj hji
        rcases Nat.lt_or_ge j i with hj' | hj'
        · exact hinv j hj hj'
        · have : j = i := by omega
          subst this
          rw [hei]
          omega
      by_cases hgt : e.1 > vpos
      · rw [if_pos hgt] at h
        exact hstop (Nat.le_of_lt hgt) h
      · rw [if_neg hgt] at h
        by_cases heq : e.1 = vpos
        · rw [if_pos heq] at h
          cases halk : alookup vars e.2 with
          | none =>
            simp only [halk] at h
            cases h
          | some v =>
            simp only [halk] at h
            by_cases hdup : v.type = vt ∧ v.data = vdata
            · rw [if_pos hdup] at h; cases h
            · rw [if_neg hdup] at h
              by_cases hty : v.type ≠ vt
              · rw [if_pos hty] at h
                by_cases hins : vt = VarType.insertion
                · rw [if_pos hins] at h
                  exact hstop (Nat.le_of_eq heq.symm) h
                · rw [if_neg hins] at h
                  by_cases hsd : vt = VarType.single ∧ v.type = VarType.deletion
                  · rw [if_pos hsd] at h
                    exact hstop (Nat.le_of_eq heq.symm) h
                  · rw [if_neg hsd] at h
                    exact hnext (hskip (by omega)) h
              · rw [if_neg hty] at h
                by_cases hlt : pyStrLt vdata v.data
                · rw [if_pos hlt] at h
                  exact hstop (Nat.le_of_eq heq.symm) h
                · rw [if_neg hlt] at h
                  exact hnext (hskip (by omega)) h
        · rw [if_neg heq] at h
          exact hnext (hskip (by omega)) h

theorem add_novel_var_sorted {vars : List (String × Variant)} {lst : List (Nat × String)}
    {cnt : Nat} {vt : VarType} {vpos : Nat} {vdata : String}
    {out : List (String × Variant) × List (Nat × String) × Nat × String}
    (hs : SortedByPos lst)
    (h : add_novel_var vars lst cnt vt vpos vdata = some out) :
    SortedByPos out.2.1 := by
  unfold add_novel_var at h
  cases hidx : novelInsertIdx vars lst vt vpos vdata (lower_bound lst vpos) with
  | none => rw [hidx] at h; cases h
  | some idx =>
    rw [hidx] at h
    simp only [Option.some_bind] at h
    cases halk : alookup vars ("nv" ++ toString cnt) with
    | some _ => simp only [halk] at h; cases h
    | none =>
      simp only [halk] at h
      cases h
      have hinv : ∀ j (hj : j < lst.length), j < lower_bound lst vpos →
          (lst[j]).1 ≤ vpos := by
        intro j hj hlb
        exact Nat.le_of_lt (lower_bound_lt lst vpos j hj hlb)
      have hb := novelInsertIdx_bounds vars lst vt vpos vdata lst.length
        (lower_bound lst vpos) idx (by omega) hidx hinv
      refine sortedInsertIdx (vpos, "nv" ++ toString cnt) lst idx hs hb.1 ?_
      intro j hj hij
      rcases Nat.eq_or_lt_of_le hij with rfl | hlt
      · exact hb.2 hj
      · have hidxlt : idx < lst.length := Nat.lt_trans hlt hj
        have hp := List.pairwise_iff_getElem.mp hs idx j hidxlt hj hlt
        exact Nat.le_trans (hb.2 hidxlt) hp

theorem novelStep_sorted (s : CatState) (r : NovelReq) (hs : SortedByPos s.varList) :
    SortedByPos (novelStep s r).varList := by
  unfold novelStep novelStepTrace
  cases h : add_novel_var s.vars s.varList s.count r.vt r.vpos r.vdata with
  | none => simpa using hs
  | some out =>
    obtain ⟨v', l', c', vid⟩ := out
    have := add_novel_var_sorted hs h
    simpa using this

/-- C3: for every sequence of `add_novel_var` calls starting from a
position-sorted `(position, id)` catalog list, the list remains sorted by
position after every call (every intermediate state is the final state of a
prefix of the call sequence, so the single invariant covers each call). -/
theorem C3_novel_insertion_preserves_sorted (s : CatState) (reqs : List NovelReq)
    (hs : SortedByPos s.varList) : SortedByPos (runNovel s reqs).varList := by
  induction reqs generalizing s with
  | nil => exact hs
  | cons r rs ih =>
    have h1 : runNovel s (r :: rs) = runNovel (novelStep s r) rs := rfl
    rw [h1]
    exact ih (novelStep s r) (novelStep_sorted s r hs)

/-- Witness for C3 at a concrete catalog and insertion sequence. -/
theorem C3_novel_insertion_preserves_sorted_witness :
    SortedByPos ([(1, "a"), (3, "b")]) ∧
    SortedByPos (runNovel
      ⟨[("a", ⟨VarType.single, 1, "G"⟩), ("b", ⟨VarType.single, 3, "T"⟩)],
       [(1, "a"), (3, "b")], 0⟩
      [⟨VarType.single, 2, "C"⟩, ⟨VarType.single, 0, "A"⟩,
       ⟨VarType.deletion, 2, "4"⟩]).varList :=
  ⟨by decide, C3_novel_insertion_preserves_sorted _ _ (by decide)⟩

theorem add_novel_var_spec {vars : List (String × Variant)} {lst : List (Nat × String)}
    {cnt : Nat} {vt : VarType} {vpos : Nat} {vdata : String}
    {out : List (String × Variant) × List (Nat × String) × Nat × String}
    (h : add_novel_var vars lst cnt vt vpos vdata = some out) :
    out.2.2.1 = cnt + 1 ∧ out.2.2.2 = "nv" ++ toString cnt ∧
      alookup vars ("nv" ++ toString cnt) = none := by
  unfold add_novel_var at h
  cases hidx : novelInsertIdx vars lst vt vpos vdata (lower_bound lst vpos) with
  | none => rw [hidx] at h; cases h
  | some idx =>
    rw [hidx] at h
    simp only [Option.some_bind] at h
    cases halk : alookup vars ("nv" ++ toString cnt) with
    | some _ => simp only [halk] at h; cases h
    | none =>
      simp only [halk] at h
      cases h
      exact ⟨rfl, rfl, rfl⟩

theorem runNovelTrace_cons (s : CatState) (r : NovelReq) (rs : List NovelReq) :
    runNovelTrace s (r :: rs)
      = (match novelStepTrace s r with
         | (s', none) => runNovelTrace s' rs
         | (s', some m) => m :: runNovelTrace s' rs) := rfl

theorem runNovelTrace_spec (reqs : List NovelReq) : ∀ (s : CatState),
    ((runNovelTrace s reqs).map MintRec.countBefore
      = List.range' s.count (runNovelTrace s reqs).length)
    ∧ ∀ m ∈ runNovelTrace s reqs,
        m.mintedId = "nv" ++ toString m.countBefore
        ∧ alookup m.varsBefore m.mintedId = none := by
  induction reqs with
  | nil =>
    intro s
    exact ⟨rfl, by intro m hm; cases hm⟩
  | cons r rs ih =>
    intro s
    rw [runNovelTrace_cons]
    cases hstep : add_novel_var s.vars s.varList s.count r.vt r.vpos r.vdata with
    | none =>
      simp only [novelStepTrace, hstep]
      exact ih s
    | some out =>
      obtain ⟨v', l', c', vid⟩ := out
      obtain ⟨hc, hid, hfresh⟩ := add_novel_var_spec hstep
      simp only [] at hc hid
      simp only [novelStepTrace, hstep]
      constructor
      · have htail := (ih ⟨v', l', c'⟩).1
        simp only [List.map_cons, htail, List.length_cons]
        rw [List.range'_succ]
        simp only [hc]
      · intro m hm
        rcases List.mem_cons.mp hm with rfl | hm'
        · exact ⟨hid, by rw [hid]; exact hfresh⟩
        · exact (ih ⟨v', l', c'⟩).2 m hm'

/-- C4: within one locus pass (novel counter starting at 0), the ids minted
by successive `add_novel_var` calls are nv0, nv1, nv2, ... in strictly
increasing counter order (the counters form `List.range`), and no minted id
was present in the catalog mapping at the time of minting. -/
theorem C4_novel_ids_fresh_and_increasing (vars0 : List (String × Variant))
    (lst0 : List (Nat × String)) (reqs : List NovelReq) :
    ((runNovelTrace ⟨vars0, lst0, 0⟩ reqs).map MintRec.countBefore
      = List.range (runNovelTrace ⟨vars0, lst0, 0⟩ reqs).length)
    ∧ ∀ m ∈ runNovelTrace ⟨vars0, lst0, 0⟩ reqs,
        m.mintedId = "nv" ++ toString m.countBefore
        ∧ alookup m.varsBefore m.mintedId = none := by
  have h := runNovelTrace_spec reqs ⟨vars0, lst0, 0⟩
  rw [List.range_eq_range']
  exact h

/-! ### Maxrights (C7) -/

theorem foldl_max_init_le (l : List Int) : ∀ (init : Int), init ≤ l.foldl max init := by
  induction l with
  | nil => intro init; exact le_refl _
  | cons a t ih =>
    intro init
    exact le_trans (le_max_left init a) (ih (max init a))

theorem le_foldl_max (l : List Int) : ∀ (init x : Int), x ∈ l → x ≤ l.foldl max init := by
  induction l with
  | nil => intro _ x hx; cases hx
  | cons a t ih =>
    intro init x hx
    rcases List.mem_cons.mp hx with rfl | hx'
    · exact le_trans (le_max_right init x) (foldl_max_init_le t (max init x))
    · exact ih (max init a) x hx'

theorem gene_var_maxrights_eq (vars : List (String × Variant)) :
    ∀ (l : List (Nat × String)) (cur : Int) (m : List (String × Int)),
    gene_var_maxrights vars l cur = some m → (l.map Prod.snd).Nodup →
    ∀ i (hi : i < l.length),
      alookup m ((l[i]).2)
        = some (((l.take (i + 1)).map (fun e => rightD vars e.2)).foldl max cur) := by
  intro l
  induction l with
  | nil =>
    intro cur m hm hnd i hi
    exact absurd hi (Nat.not_lt_zero i)
  | cons a t ih =>
    intro cur m hm hnd i hi
    obtain ⟨p, vid⟩ := a
    simp only [gene_var_maxrights] at hm
    cases halk : alookup vars vid with
    | none =>
      simp only [halk] at hm
      exact Option.noConfusion hm
    | some v =>
      simp only [halk] at hm
      cases hrec : gene_var_maxrights vars t (max cur (varRightI v)) with
      | none =>
        simp only [hrec, Option.map_none'] at hm
        exact Option.noConfusion hm
      | some m' =>
        simp only [hrec, Option.map_some'] at hm
        cases hm
        cases i with
        | zero =>
          simp [alookup, rightD, halk]
        | succ j =>
          have hj : j < t.length := Nat.lt_of_succ_lt_succ hi
          have hnd' : (t.map Prod.snd).Nodup := (List.nodup_cons.mp hnd).2
          have hne : vid ≠ ((t[j]).2) := by
            intro hcontra
            have hmem : (t[j]).2 ∈ t.map Prod.snd :=
              List.mem_map_of_mem Prod.snd (List.getElem_mem hj)
            exact (List.nodup_cons.mp hnd).1 (hcontra ▸ hmem)
          have hgoal := ih (max cur (varRightI v)) m' hrec hnd' j hj
          calc alookup ((vid, max cur (varRightI v)) :: m') ((((p, vid) :: t)[j + 1]).2)
              = alookup m' ((t[j]).2) := by
                simp only [List.getElem_cons_succ]
                simp [alookup, hne]
            _ = some (((((p, vid) :: t).take (j + 1 + 1)).map
                  (fun e => rightD vars e.2)).foldl max cur) := by
                rw [hgoal]
                simp only [List.take_succ_cons, List.map_cons, List.foldl_cons]
                have : rightD vars vid = varRightI v := by simp [rightD, halk]
                rw [this]

/-- C7 (amended): `gene_var_maxrights` caches, for each catalog entry, the
running maximum of rightmost affected positions over all entries up to and
including it in position order (seeded with -1) — not the variant's own
`position + length - 1`; in particular the cached value is an upper bound on
the variant's own rightmost affected position. -/
theorem C7_maxrights_is_running_max (vars : List (String × Variant))
    (l : List (Nat × String)) (m : List (String × Int))
    (hm : gene_var_maxrights vars l (-1) = some m)
    (hnd : (l.map Prod.snd).Nodup) (i : Nat) (hi : i < l.length) :
    alookup m ((l[i]).2) = some (runningMaxAt vars l i)
    ∧ ∀ v, alookup vars ((l[i]).2) = some v → varRightI v ≤ runningMaxAt vars l i := by
  constructor
  · exact gene_var_maxrights_eq vars l (-1) m hm hnd i hi
  · intro v hv
    unfold runningMaxAt
    have heq : rightD vars ((l[i]).2) = varRightI v := by simp [rightD, hv]
    rw [← heq]
    apply le_foldl_max
    apply List.mem_map_of_mem
    have hlen : i < (l.take (i + 1)).length := by
      simp only [List.length_take]
      omega
    have hgt : (l.take (i + 1))[i] = l[i] := List.getElem_take l
    exact hgt ▸ List.getElem_mem hlen

/-- C7 counterexample: for deletion `d2` at position 1 of length 1, the
cached value is 9 (the running maximum, inherited from `d1`), not its own
rightmost affected position `1 + 1 - 1 = 1`. -/
theorem C7_counterexample :
    gene_var_maxrights c7vars c7list (-1) = some c7m
    ∧ alookup c7vars "d2" = some ⟨VarType.deletion, 1, "1"⟩
    ∧ varRightI ⟨VarType.deletion, 1, "1"⟩ = 1
    ∧ alookup c7m "d2" = some 9
    ∧ (9 : Int) ≠ 1 := by decide

/-- Witness for C7 at the concrete two-deletion catalog. -/
theorem C7_maxrights_is_running_max_witness :
    alookup c7m ((c7list.get ⟨1, by decide⟩).2) = some (runningMaxAt c7vars c7list 1)
    ∧ ∀ v, alookup c7vars ((c7list.get ⟨1, by decide⟩).2) = some v →
        varRightI v ≤ runningMaxAt c7vars c7list 1 :=
  C7_maxrights_is_running_max c7vars c7list c7m (by decide) (by decide) 1 (by decide)

/-! ### Allele compatibility counting (C1) -/

theorem addCountStep_mono (links : List (String × List String))
    (geneVars : List (String × Variant)) (maxrights : List (String × Int))
    (varList : List (Nat × String)) (left right : Nat) (v : String)
    (mid : List String)
    (hv : startsWithNv v = true ∨ alookup links v = none
        ∨ ∀ var, alookup geneVars v = some var → spanOverlap var left right = false)
    (idx : Nat) {n n' : Option (Finset String)}
    (hn : ∀ {a a' : Finset String}, n = some a → n' = some a' → a ⊆ a')
    {T T' : Finset String}
    (h : addCountStep links geneVars maxrights varList mid left right idx n = some T)
    (h' : addCountStep links geneVars maxrights varList (v :: mid) left right idx n'
      = some T') : T ⊆ T' := by
  simp only [addCountStep] at h h'
  cases hget : varList[idx]? with
  | none =>
    simp only [hget] at h h'
    cases h
    cases h'
    exact Finset.Subset.refl _
  | some e =>
    simp only [hget] at h h'
    by_cases hmem : e.2 ∈ mid
    · have hmem' : e.2 ∈ v :: mid := List.mem_cons_of_mem v hmem
      by_cases hnv : startsWithNv e.2
      · rw [if_pos (Or.inl hnv)] at h h'
        exact hn h h'
      · rw [if_pos (Or.inr hmem)] at h
        rw [if_pos (Or.inr hmem')] at h'
        exact hn h h'
    · by_cases hnv : startsWithNv e.2
      · rw [if_pos (Or.inl hnv)] at h h'
        exact hn h h'
      · rw [if_neg (by simp [hnv, hmem])] at h
        by_cases hev : e.2 = v
        · -- the added variant's own catalog entries: skipped in the new scan
          rw [if_pos (Or.inr (by simp [hev]))] at h'
          rcases hv with hv1 | hv2 | hv3
          · exact absurd (hev ▸ hv1) hnv
          · rw [hev, hv2] at h
            exact hn h h'
          · cases hlk : alookup links e.2 with
            | none =>
              rw [hlk] at h
              exact hn h h'
            | some als =>
              rw [hlk] at h
              cases hgv : alookup geneVars e.2 with
              | none =>
                simp only [hgv] at h
                cases hmr : alookup maxrights e.2 with
                | some mr =>
                  simp only [hmr] at h
                  by_cases hbrk : mr < (left : Int)
                  · rw [if_pos hbrk] at h
                    cases h
                    exact Finset.empty_subset _
                  · rw [if_neg hbrk] at h
                    exact Option.noConfusion h
                | none =>
                  simp only [hmr] at h
                  exact Option.noConfusion h
              | some var =>
                have hso : spanOverlap var left right = false := hv3 var (hev ▸ hgv)
                simp only [hgv, hso] at h
                cases hmr : alookup maxrights e.2 with
                | some mr =>
                  simp only [hmr] at h
                  by_cases hbrk : mr < (left : Int)
                  · rw [if_pos hbrk] at h
                    cases h
                    exact Finset.empty_subset _
                  · rw [if_neg hbrk] at h
                    rcases Option.map_eq_some'.mp h with ⟨tl, hn1, hT⟩
                    simp only [Bool.false_eq_true, if_false] at hT
                    exact hT ▸ hn hn1 h'
                | none =>
                  simp only [hmr] at h
                  rcases Option.map_eq_some'.mp h with ⟨tl, hn1, hT⟩
                  simp only [Bool.false_eq_true, if_false] at hT
                  exact hT ▸ hn hn1 h'
        · -- any other catalog entry: identical treatment in both scans
          have hmem' : e.2 ∉ v :: mid := by
            intro hc
            rcases List.mem_cons.mp hc with hc | hc
            · exact hev hc
            · exact hmem hc
          rw [if_neg (by simp [hnv, hmem'])] at h'
          cases hlk : alookup links e.2 with
          | none =>
            rw [hlk] at h h'
            exact hn h h'
          | some als =>
            rw [hlk] at h h'
            cases hgv : alookup geneVars e.2 with
            | none =>
              simp only [hgv] at h h'
              cases hmr : alookup maxrights e.2 with
              | some mr =>
                simp only [hmr] at h h'
                by_cases hbrk : mr < (left : Int)
                · rw [if_pos hbrk] at h h'
                  cases h
                  cases h'
                  exact Finset.Subset.refl _
                · rw [if_neg hbrk] at h
                  exact Option.noConfusion h
              | none =>
                simp only [hmr] at h
                exact Option.noConfusion h
            | some var =>
              simp only [hgv] at h h'
              cases hmr : alookup maxrights e.2 with
              | some mr =>
                simp only [hmr] at h h'
                by_cases hbrk : mr < (left : Int)
                · rw [if_pos hbrk] at h h'
                  cases h
                  cases h'
                  exact Finset.Subset.refl _
                · rw [if_neg hbrk] at h h'
                  rcases Option.map_eq_some'.mp h with ⟨tl, hn1, hT⟩
                  rcases Option.map_eq_some'.mp h' with ⟨tl', hn2, hT'⟩
                  have hsub := hn hn1 hn2
                  subst hT
                  subst hT'
                  by_cases hso : spanOverlap var left right
                  · simp only [hso, if_true]
                    exact Finset.union_subset_union (Finset.Subset.refl _) hsub
                  · simp only [hso]
                    simpa using hsub
              | none =>
                simp only [hmr] at h h'
                rcases Option.map_eq_some'.mp h with ⟨tl, hn1, hT⟩
                rcases Option.map_eq_some'.mp h' with ⟨tl', hn2, hT'⟩
                have hsub := hn hn1 hn2
                subst hT
                subst hT'
                by_cases hso : spanOverlap var left right
                · simp only [hso, if_true]
                  exact Finset.union_subset_union (Finset.Subset.refl _) hsub
                · simp only [hso]
                  simpa using hsub

theorem addCountScan_mono (links : List (String × List String))
    (geneVars : List (String × Variant)) (maxrights : List (String × Int))
    (varList : List (Nat × String)) (left right : Nat) (v : String)
    (mid : List String)
    (hv : startsWithNv v = true ∨ alookup links v = none
        ∨ ∀ var, alookup geneVars v = some var → spanOverlap var left right = false) :
    ∀ (idx : Nat) {T T' : Finset String},
    addCountScan links geneVars maxrights varList mid left right idx = some T →
    addCountScan links geneVars maxrights varList (v :: mid) left right idx = some T' →
    T ⊆ T' := by
  intro idx
  induction idx with
  | zero =>
    intro T T' h h'
    refine addCountStep_mono links geneVars maxrights varList left right v mid hv 0
      ?_ h h'
    intro a a' ha ha'
    cases ha
    cases ha'
    exact Finset.Subset.refl _
  | succ j ih =>
    intro T T' h h'
    exact addCountStep_mono links geneVars maxrights varList left right v mid hv (j + 1)
      (fun ha ha' => ih ha ha') h h'

theorem alleleFoldStep_subset (links : List (String × List String))
    (s : Finset String) (vid : String) :
    (if startsWithNv vid then s
     else match alookup links vid with
       | none => s
       | some als => s ∩ als.toFinset) ⊆ s := by
  by_cases hnv : startsWithNv vid
  · rw [if_pos hnv]
  · rw [if_neg hnv]
    cases alookup links vid with
    | none => exact Finset.Subset.refl s
    | some als => exact Finset.inter_subset_left

theorem alleleFold_mono (links : List (String × List String)) (mid : List String) :
    ∀ {s s' : Finset String}, s ⊆ s' →
    mid.foldl (fun s vid =>
      if startsWithNv vid then s
      else match alookup links vid with
        | none => s
        | some als => s ∩ als.toFinset) s
    ⊆ mid.foldl (fun s vid =>
      if startsWithNv vid then s
      else match alookup links vid with
        | none => s
        | some als => s ∩ als.toFinset) s' := by
  induction mid with
  | nil => intro s s' h; exact h
  | cons w t ih =>
    intro s s' h
    simp only [List.foldl_cons]
    apply ih
    by_cases hnv : startsWithNv w
    · simpa [hnv] using h
    · simp only [hnv, Bool.false_eq_true, if_false]
      cases alookup links w with
      | none => exact h
      | some als => exact Finset.inter_subset_inter h (Finset.Subset.refl _)

/-- C1 (amended): adding a catalog variant id `v` to the embedded variant
list of a signature (anchors unchanged) can only shrink the compatible-allele
set computed by `add_count`, provided `v` is novel (`nv...`), unlinked, or
its span does not overlap the anchor interval `[left, right]`.  (For a linked
catalog variant overlapping the anchors the set can grow, because the scan
skips variants embedded in the signature: see the C1 counterexample.) -/
theorem C1_add_count_subset_of_added_variant (genes : Finset String)
    (refAllele : String) (links : List (String × List String))
    (geneVars : List (String × Variant)) (varList : List (Nat × String))
    (maxrights : List (String × Int)) (countKeys : Finset String)
    (left right : Nat) (mid : List String) (v : String)
    (hv : startsWithNv v = true ∨ alookup links v = none
        ∨ ∀ var, alookup geneVars v = some var → spanOverlap var left right = false)
    {S S' : Finset String}
    (h : add_count_alleles genes refAllele links geneVars varList maxrights countKeys
      left mid right = some S)
    (h' : add_count_alleles genes refAllele links geneVars varList maxrights countKeys
      left (v :: mid) right = some S') :
    S' ⊆ S := by
  simp only [add_count_alleles] at h h'
  rcases Option.map_eq_some'.mp h with ⟨T, hscan, hS⟩
  rcases Option.map_eq_some'.mp h' with ⟨T', hscan', hS'⟩
  subst hS
  subst hS'
  have hTT := addCountScan_mono links geneVars maxrights varList left right v mid hv
    _ hscan hscan'
  have hfold : (v :: mid).foldl (fun s vid =>
      if startsWithNv vid then s
      else match alookup links vid with
        | none => s
        | some als => s ∩ als.toFinset) (genes.erase refAllele)
    ⊆ mid.foldl (fun s vid =>
      if startsWithNv vid then s
      else match alookup links vid with
        | none => s
        | some als => s ∩ als.toFinset) (genes.erase refAllele) := by
    simp only [List.foldl_cons]
    exact alleleFold_mono links mid (alleleFoldStep_subset links _ v)
  exact Finset.inter_subset_inter (Finset.sdiff_subset_sdiff hfold hTT)
    (Finset.Subset.refl _)

/-- C1 counterexample: catalog variant `v1` at position 5 linked to allele
`A1`, signature anchors `[0, 10]`.  Without `v1` embedded the compatible set
is empty (the scan subtracts `A1`); embedding `v1` yields `{A1}` — the set
grew. -/
theorem C1_counterexample :
    add_count_alleles {"A1", "ref"} "ref" [("v1", ["A1"])]
      [("v1", ⟨VarType.single, 5, "T"⟩)] [(5, "v1")] [("v1", 5)]
      {"A1"} 0 [] 10 = some ∅
    ∧ add_count_alleles {"A1", "ref"} "ref" [("v1", ["A1"])]
      [("v1", ⟨VarType.single, 5, "T"⟩)] [(5, "v1")] [("v1", 5)]
      {"A1"} 0 ["v1"] 10 = some {"A1"}
    ∧ ¬(({"A1"} : Finset String) ⊆ (∅ : Finset String)) := by decide

/-- Witness for C1 (amended) at a concrete catalog: the added variant `v2`
sits at position 50, outside the anchor interval `[0, 10]`. -/
theorem C1_add_count_subset_of_added_variant_witness :
    (startsWithNv "v2" = true ∨ alookup [("v1", ["A1"]), ("v2", ["A1"])] "v2" = none
      ∨ ∀ var, alookup [("v1", ⟨VarType.single, 5, "T"⟩),
          ("v2", ⟨VarType.single, 50, "C"⟩)] "v2" = some var →
          spanOverlap var 0 10 = false)
    ∧ add_count_alleles {"A1", "ref"} "ref" [("v1", ["A1"]), ("v2", ["A1"])]
        [("v1", ⟨VarType.single, 5, "T"⟩), ("v2", ⟨VarType.single, 50, "C"⟩)]
        [(5, "v1"), (50, "v2")] [("v1", 5), ("v2", 50)]
        {"A1"} 0 ["v1"] 10 = some {"A1"}
    ∧ add_count_alleles {"A1", "ref"} "ref" [("v1", ["A1"]), ("v2", ["A1"])]
        [("v1", ⟨VarType.single, 5, "T"⟩), ("v2", ⟨VarType.single, 50, "C"⟩)]
        [(5, "v1"), (50, "v2")] [("v1", 5), ("v2", 50)]
        {"A1"} 0 ["v2", "v1"] 10 = some {"A1"}
    ∧ ({"A1"} : Finset String) ⊆ ({"A1"} : Finset String) := by
  have hv : startsWithNv "v2" = true
      ∨ alookup [("v1", ["A1"]), ("v2", ["A1"])] "v2" = none
      ∨ ∀ var, alookup [("v1", ⟨VarType.single, 5, "T"⟩),
          ("v2", ⟨VarType.single, 50, "C"⟩)] "v2" = some var →
          spanOverlap var 0 10 = false := by
    refine Or.inr (Or.inr ?_)
    intro var hvar
    have : (⟨VarType.single, 50, "C"⟩ : Variant) = var := by
      have h1 : alookup [("v1", (⟨VarType.single, 5, "T"⟩ : Variant)),
          ("v2", ⟨VarType.single, 50, "C"⟩)] "v2"
          = some ⟨VarType.single, 50, "C"⟩ := by decide
      rw [h1] at hvar
      exact Option.some.inj hvar
    rw [← this]
    decide
  have h1 : add_count_alleles {"A1", "ref"} "ref" [("v1", ["A1"]), ("v2", ["A1"])]
      [("v1", ⟨VarType.single, 5, "T"⟩), ("v2", ⟨VarType.single, 50, "C"⟩)]
      [(5, "v1"), (50, "v2")] [("v1", 5), ("v2", 50)]
      {"A1"} 0 ["v1"] 10 = some {"A1"} := by decide
  have h2 : add_count_alleles {"A1", "ref"} "ref" [("v1", ["A1"]), ("v2", ["A1"])]
      [("v1", ⟨VarType.single, 5, "T"⟩), ("v2", ⟨VarType.single, 50, "C"⟩)]
      [(5, "v1"), (50, "v2")] [("v1", 5), ("v2", 50)]
      {"A1"} 0 ["v2", "v1"] 10 = some {"A1"} := by decide
  exact ⟨hv, h1, h2,
    C1_add_count_subset_of_added_variant _ _ _ _ _ _ _ _ _ _ _ hv h1 h2⟩

/-! ### Error correction (C2, C10) -/

theorem cmpLen_nil : cmpLen [] = 0 := rfl

theorem cmpLen_cons (op : Cmp) (t : List Cmp) :
    cmpLen (op :: t) = op.length + cmpLen t := by
  simp [cmpLen]

theorem cmpLen_append (l1 l2 : List Cmp) :
    cmpLen (l1 ++ l2) = cmpLen l1 + cmpLen l2 := by
  simp [cmpLen]

theorem consensusOkN_nil (mp : List (List Char)) (s : List Char) (r : Nat) :
    consensusOkN mp s r [] = true := rfl

theorem consensusOkN_cons (mp : List (List Char)) (s : List Char) (r : Nat)
    (op : Cmp) (rest : List Cmp) :
    consensusOkN mp s r (op :: rest)
      = (misOkN mp s r op && consensusOkN mp s (r + op.length) rest) := rfl

theorem consensusOkN_append (mp : List (List Char)) (s : List Char) :
    ∀ (l1 l2 : List Cmp) (r : Nat),
    consensusOkN mp s r (l1 ++ l2)
      = (consensusOkN mp s r l1 && consensusOkN mp s (r + cmpLen l1) l2) := by
  intro l1
  induction l1 with
  | nil =>
    intro l2 r
    simp [consensusOkN_nil, cmpLen_nil]
  | cons op t ih =>
    intro l2 r
    rw [List.cons_append, consensusOkN_cons, consensusOkN_cons, ih, cmpLen_cons,
      Bool.and_assoc]
    have harith : r + op.length + cmpLen t = r + (op.length + cmpLen t) := by omega
    rw [harith]

theorem misOkN_matchOp (mp : List (List Char)) (s : List Char) (r : Nat) (op : Cmp)
    (h : op.type = CmpType.matchOp) : misOkN mp s r op = true := by
  unfold misOkN
  rw [h]

set_option maxHeartbeats 1000000 in
theorem pmGo_spec (refSeq : List Char) (mp : List (List Char))
    (vars : List (String × Variant)) (varList : List (Nat × String))
    (left rpos length : Nat) :
    ∀ (fuel j lastJ : Nat) (seq : List Char) {mid : List Cmp} {sF : List Char} {n : Nat},
    length ≤ j + fuel → lastJ ≤ j →
    pmGo refSeq mp vars varList left rpos length j lastJ seq = some (mid, sF, n) →
    sF.length = seq.length
    ∧ (∀ i, i < rpos + j → sF[i]? = seq[i]?)
    ∧ (j ≤ length → cmpLen mid = length - lastJ)
    ∧ (∀ op ∈ mid, 0 < op.length)
    ∧ n = mid.countP (fun c => c.type == CmpType.mismatch)
    ∧ consensusOkN mp sF (rpos + lastJ) mid = true := by
  intro fuel
  have hbase : ∀ (j lastJ : Nat) (seq : List Char) {mid : List Cmp} {sF : List Char}
      {n : Nat}, ¬(j < length) → lastJ ≤ j →
      pmGo refSeq mp vars varList left rpos length j lastJ seq = some (mid, sF, n) →
      sF.length = seq.length
      ∧ (∀ i, i < rpos + j → sF[i]? = seq[i]?)
      ∧ (j ≤ length → cmpLen mid = length - lastJ)
      ∧ (∀ op ∈ mid, 0 < op.length)
      ∧ n = mid.countP (fun c => c.type == CmpType.mismatch)
      ∧ consensusOkN mp sF (rpos + lastJ) mid = true := by
    intro j lastJ seq mid sF n hj hlastJ h
    rw [pmGo, dif_neg hj] at h
    cases h
    refine ⟨rfl, fun i _ => rfl, ?_, ?_, ?_, ?_⟩
    · intro hjle
      by_cases hl : lastJ < length
      · simp only [if_pos hl, cmpLen_cons, cmpLen_nil]
        omega
      · simp only [if_neg hl, cmpLen_nil]
        omega
    · intro op hop
      by_cases hl : lastJ < length
      · simp only [if_pos hl, List.mem_singleton] at hop
        subst hop
        simp only []
        omega
      · simp only [if_neg hl, List.not_mem_nil] at hop
    · by_cases hl : lastJ < length
      · simp [if_pos hl]
      · simp [if_neg hl]
    · by_cases hl : lastJ < length
      · simp [if_pos hl, consensusOkN_cons, consensusOkN_nil, misOkN]
      · simp [if_neg hl, consensusOkN_nil]
  induction fuel with
  | zero =>
    intro j lastJ seq mid sF n hf hlastJ h
    exact hbase j lastJ seq (by omega) hlastJ h
  | succ fuel ih =>
    intro j lastJ seq mid sF n hf hlastJ h
    rw [pmGo] at h
    split at h
    · next hj =>
      split at h
      · next hoob =>
        rcases ih (j+1) lastJ seq (by omega) (by omega) h with ⟨h1, h2, h3, h4, h5, h6⟩
        exact ⟨h1, fun i hi => h2 i (by omega), fun _ => h3 (by omega), h4, h5, h6⟩
      · next hoob =>
        have hseqlt : rpos + j < seq.length := by omega
        have hreflt : left + j < refSeq.length := by omega
        split at h
        · next rb fb hrb hfb =>
          split at h
          · next hmplt =>
            split at h
            · next ntset hmp =>
              split at h
              · rcases ih (j+1) lastJ seq (by omega) (by omega) h
                  with ⟨h1, h2, h3, h4, h5, h6⟩
                exact ⟨h1, fun i hi => h2 i (by omega), fun _ => h3 (by omega),
                  h4, h5, h6⟩
              · next c cs =>
                split at h
                · next hin =>
                  rcases ih (j+1) lastJ seq (by omega) (by omega) h
                    with ⟨h1, h2, h3, h4, h5, h6⟩
                  exact ⟨h1, fun i hi => h2 i (by omega), fun _ => h3 (by omega),
                    h4, h5, h6⟩
                · next hnin =>
                  split at h
                  all_goals dsimp only [] at h
                  all_goals split at h
                  case isTrue.isTrue => exact Option.noConfusion h
                  case isFalse.isTrue => exact Option.noConfusion h
                  case isTrue.isFalse hlen2 hne =>
                    rcases Option.bind_eq_some.mp h with ⟨tag, htag, h2'⟩
                    rcases Option.map_eq_some'.mp h2' with ⟨out, hrec, hout⟩
                    obtain ⟨mid', sF', n'⟩ := out
                    cases hout
                    rcases ih (j+1) (j+1) _ (by omega) (le_refl _) hrec
                      with ⟨h1, h2, h3, h4, h5, h6⟩
                    have hmid' := h3 (by omega)
                    have hsF : sF'[rpos + j]? = some 'N' := by
                      rw [h2 (rpos + j) (by omega)]
                      exact List.getElem?_set_eq hseqlt
                    refine ⟨?_, ?_, ?_, ?_, ?_, ?_⟩
                    · rw [h1, List.length_set]
                    · intro i hi
                      rw [h2 i (by omega), List.getElem?_set_ne (by omega)]
                    · intro _
                      by_cases hl : lastJ < j
                      · simp only [if_pos hl, cmpLen_append, cmpLen_cons,
                          cmpLen_nil, hmid']
                        omega
                      · simp only [if_neg hl, List.nil_append, cmpLen_cons, hmid']
                        omega
                    · intro op hop
                      rcases List.mem_append.mp hop with hop | hop
                      · by_cases hl : lastJ < j
                        · simp only [if_pos hl, List.mem_singleton] at hop
                          subst hop
                          simp only []
                          omega
                        · simp only [if_neg hl, List.not_mem_nil] at hop
                      · rcases List.mem_cons.mp hop with rfl | hop
                        · exact Nat.one_pos
                        · exact h4 op hop
                    · rw [List.countP_append, List.countP_cons]
                      have hpre0 : (if lastJ < j then
                          [(⟨CmpType.matchOp, left + lastJ, j - lastJ, none⟩ : Cmp)]
                          else []).countP (fun c => c.type == CmpType.mismatch) = 0 := by
                        by_cases hl : lastJ < j
                        · simp [if_pos hl]
                        · simp [if_neg hl]
                      rw [hpre0, h5]
                      simp
                    · rw [consensusOkN_append, Bool.and_eq_true]
                      constructor
                      · by_cases hl : lastJ < j
                        · simp [if_pos hl, consensusOkN_cons, consensusOkN_nil, misOkN]
                        · simp [if_neg hl, consensusOkN_nil]
                      · have hpre : cmpLen (if lastJ < j then
                            [(⟨CmpType.matchOp, left + lastJ, j - lastJ, none⟩ : Cmp)]
                            else []) = j - lastJ := by
                          by_cases hl : lastJ < j
                          · simp only [if_pos hl, cmpLen_cons, cmpLen_nil]
                            omega
                          · simp only [if_neg hl, cmpLen_nil]
                            omega
                        rw [hpre]
                        have harith : rpos + lastJ + (j - lastJ) = rpos + j := by omega
                        rw [harith, consensusOkN_cons, Bool.and_eq_true]
                        constructor
                        · simp [misOkN, supportAt, hmp, hsF]
                        · have harith2 : rpos + j + 1 = rpos + (j + 1) := by omega
                          rw [harith2]
                          exact h6
                  case isFalse.isFalse hlen2 hne =>
                    rcases Option.bind_eq_some.mp h with ⟨tag, htag, h2'⟩
                    rcases Option.map_eq_some'.mp h2' with ⟨out, hrec, hout⟩
                    obtain ⟨mid', sF', n'⟩ := out
                    cases hout
                    rcases ih (j+1) (j+1) _ (by omega) (le_refl _) hrec
                      with ⟨h1, h2, h3, h4, h5, h6⟩
                    have hmid' := h3 (by omega)
                    have hsF : sF'[rpos + j]? = some c := by
                      rw [h2 (rpos + j) (by omega)]
                      exact List.getElem?_set_eq hseqlt
                    refine ⟨?_, ?_, ?_, ?_, ?_, ?_⟩
                    · rw [h1, List.length_set]
                    · intro i hi
                      rw [h2 i (by omega), List.getElem?_set_ne (by omega)]
                    · intro _
                      by_cases hl : lastJ < j
                      · simp only [if_pos hl, cmpLen_append, cmpLen_cons,
                          cmpLen_nil, hmid']
                        omega
                      · simp only [if_neg hl, List.nil_append, cmpLen_cons, hmid']
                        omega
                    · intro op hop
                      rcases List.mem_append.mp hop with hop | hop
                      · by_cases hl : lastJ < j
                        · simp only [if_pos hl, List.mem_singleton] at hop
                          subst hop
                          simp only []
                          omega
                        · simp only [if_neg hl, List.not_mem_nil] at hop
                      · rcases List.mem_cons.mp hop with rfl | hop
                        · exact Nat.one_pos
                        · exact h4 op hop
                    · rw [List.countP_append, List.countP_cons]
                      have hpre0 : (if lastJ < j then
                          [(⟨CmpType.matchOp, left + lastJ, j - lastJ, none⟩ : Cmp)]
                          else []).countP (fun c => c.type == CmpType.mismatch) = 0 := by
                        by_cases hl : lastJ < j
                        · simp [if_pos hl]
                        · simp [if_neg hl]
                      rw [hpre0, h5]
                      simp
                    · rw [consensusOkN_append, Bool.and_eq_true]
                      constructor
                      · by_cases hl : lastJ < j
                        · simp [if_pos hl, consensusOkN_cons, consensusOkN_nil, misOkN]
                        · simp [if_neg hl, consensusOkN_nil]
                      · have hpre : cmpLen (if lastJ < j then
                            [(⟨CmpType.matchOp, left + lastJ, j - lastJ, none⟩ : Cmp)]
                            else []) = j - lastJ := by
                          by_cases hl : lastJ < j
                          · simp only [if_pos hl, cmpLen_cons, cmpLen_nil]
                            omega
                          · simp only [if_neg hl, cmpLen_nil]
                            omega
                        rw [hpre]
                        have harith : rpos + lastJ + (j - lastJ) = rpos + j := by omega
                        rw [harith, consensusOkN_cons, Bool.and_eq_true]
                        constructor
                        · simp [misOkN, supportAt, hmp, hsF]
                        · have harith2 : rpos + j + 1 = rpos + (j + 1) := by omega
                          rw [harith2]
                          exact h6
            · next hmp => exact Option.noConfusion h
          · next hmplt => exact Option.noConfusion h
        · next hwild => exact Option.noConfusion h
    · next hj =>
      exact hbase j lastJ seq hj hlastJ (by rw [pmGo, dif_neg hj]; exact h)

theorem processMatch_spec (refSeq : List Char) (mp : List (List Char))
    (vars : List (String × Variant)) (varList : List (Nat × String))
    (left rpos length : Nat) (seq : List Char) {mid : List Cmp} {sF : List Char}
    {n : Nat}
    (h : processMatch refSeq mp vars varList left rpos length seq = some (mid, sF, n)) :
    sF.length = seq.length
    ∧ (∀ i, i < rpos → sF[i]? = seq[i]?)
    ∧ cmpLen mid = length
    ∧ (∀ op ∈ mid, 0 < op.length)
    ∧ n = mid.countP (fun c => c.type == CmpType.mismatch)
    ∧ consensusOkN mp sF rpos mid = true := by
  unfold processMatch at h
  rcases Option.bind_eq_some.mp h with ⟨out, hpm, hchk⟩
  split at hchk
  · exact Option.noConfusion hchk
  · cases hchk
    rcases pmGo_spec refSeq mp vars varList left rpos length length 0 0 seq
      (by omega) (le_refl 0) hpm with ⟨h1, h2, h3, h4, h5, h6⟩
    refine ⟨h1, ?_, ?_, h4, h5, ?_⟩
    · intro i hi
      exact h2 i (by omega)
    · have := h3 (by omega)
      omega
    · have harith : rpos + 0 = rpos := by omega
      rw [harith] at h6
      exact h6

set_option maxHeartbeats 1000000 in
theorem correctMismatch_spec (refSeq : List Char) (mp : List (List Char))
    (vars : List (String × Variant)) (varList : List (Nat × String))
    (op : Cmp) (seq : List Char) (rpos : Nat) {seg : List Cmp} {sF : List Char}
    {n : Nat} (hop : op.type = CmpType.mismatch)
    (h : correctMismatch refSeq mp vars varList op seq rpos = some (seg, sF, n)) :
    sF.length = seq.length
    ∧ (∀ i, i ≠ rpos → sF[i]? = seq[i]?)
    ∧ (op.length = 1 → cmpLen seg = 1 ∧ ∀ o ∈ seg, 0 < o.length)
    ∧ n = (if seg.map Cmp.type = [CmpType.matchOp] then 1 else 0)
    ∧ consensusOkN mp sF rpos seg = true := by
  unfold correctMismatch at h
  split at h
  case h_2 hwild => exact Option.noConfusion h
  case h_1 rb fb hrb hfb =>
    have hrplt : rpos < seq.length := (List.getElem?_eq_some.mp hrb).1
    split at h
    case isFalse => exact Option.noConfusion h
    case isTrue hmplt =>
      split at h
      case h_2 hmp => exact Option.noConfusion h
      case h_1 ntset hmp =>
        split at h
        · -- ntset = [] : untouched op
          cases h
          refine ⟨rfl, fun i _ => rfl, ?_, ?_, ?_⟩
          · intro h1
            constructor
            · simp [cmpLen_cons, cmpLen_nil, h1]
            · intro o ho
              simp only [List.mem_singleton] at ho
              subst ho
              omega
          · have : (op :: []).map Cmp.type = [op.type] := rfl
            rw [this, hop]
            simp
          · rw [consensusOkN_cons, consensusOkN_nil, Bool.and_true]
            unfold misOkN
            rw [hop]
            have hsup : supportAt mp op.left = [] := by
              simp [supportAt, hmp]
            simp [hsup]
        · next c cs =>
          split at h
          · next hin =>
            -- read base already supported: untouched op
            cases h
            refine ⟨rfl, fun i _ => rfl, ?_, ?_, ?_⟩
            · intro h1
              constructor
              · simp [cmpLen_cons, cmpLen_nil, h1]
              · intro o ho
                simp only [List.mem_singleton] at ho
                subst ho
                omega
            · have : (op :: []).map Cmp.type = [op.type] := rfl
              rw [this, hop]
              simp
            · rw [consensusOkN_cons, consensusOkN_nil, Bool.and_true]
              unfold misOkN
              rw [hop]
              have hsup : supportAt mp op.left = c :: cs := by
                simp [supportAt, hmp]
              simp [hsup, hrb]
              exact Or.inl (List.mem_cons.mp hin)
          · next hnin =>
            split at h
            all_goals dsimp only [] at h
            case isTrue hlen2 =>
              -- newBp = 'N'
              rw [if_pos rfl] at h
              cases h
              refine ⟨List.length_set seq rpos 'N', ?_, ?_, ?_, ?_⟩
              · intro i hi
                exact List.getElem?_set_ne (fun hc => hi hc.symm)
              · intro h1
                constructor
                · simp [cmpLen_cons, cmpLen_nil, h1]
                · intro o ho
                  simp only [List.mem_singleton] at ho
                  subst ho
                  simp only []
                  omega
              · have : ({ op with varId := some "unknown" } :: []).map Cmp.type
                    = [op.type] := rfl
                rw [this, hop]
                simp
              · rw [consensusOkN_cons, consensusOkN_nil, Bool.and_true]
                unfold misOkN
                have htype : ({ op with varId := some "unknown" } : Cmp).type
                    = op.type := rfl
                rw [htype, hop]
                have hsup : supportAt mp ({ op with varId := some "unknown" } : Cmp).left
                    = c :: cs := by
                  simp [supportAt, hmp]
                have hget : (seq.set rpos 'N')[rpos]? = some 'N' :=
                  List.getElem?_set_eq hrplt
                simp [hsup, hget]
            case isFalse hlen2 =>
              -- newBp = c
              by_cases hcn : c = 'N'
              · rw [if_pos hcn] at h
                cases h
                refine ⟨List.length_set seq rpos c, ?_, ?_, ?_, ?_⟩
                · intro i hi
                  exact List.getElem?_set_ne (fun hc => hi hc.symm)
                · intro h1
                  constructor
                  · simp [cmpLen_cons, cmpLen_nil, h1]
                  · intro o ho
                    simp only [List.mem_singleton] at ho
                    subst ho
                    simp only []
                    omega
                · have : ({ op with varId := some "unknown" } :: []).map Cmp.type
                      = [op.type] := rfl
                  rw [this, hop]
                  simp
                · rw [consensusOkN_cons, consensusOkN_nil, Bool.and_true]
                  unfold misOkN
                  have htype : ({ op with varId := some "unknown" } : Cmp).type
                      = op.type := rfl
                  rw [htype, hop]
                  have hsup : supportAt mp ({ op with varId := some "unknown" } : Cmp).left
                      = c :: cs := by
                    simp [supportAt, hmp]
                  have hget : (seq.set rpos c)[rpos]? = some c :=
                    List.getElem?_set_eq hrplt
                  simp [hsup, hget]
              · rw [if_neg hcn] at h
                split at h
                · next hcfb =>
                  -- corrected to the reference base: op becomes a match
                  cases h
                  refine ⟨List.length_set seq rpos c, ?_, ?_, ?_, ?_⟩
                  · intro i hi
                    exact List.getElem?_set_ne (fun hc => hi hc.symm)
                  · intro _
                    refine ⟨rfl, ?_⟩
                    intro o ho
                    simp only [List.mem_singleton] at ho
                    subst ho
                    exact Nat.one_pos
                  · simp
                  · rw [consensusOkN_cons, consensusOkN_nil, Bool.and_true]
                    unfold misOkN
                    simp
                · next hcfb =>
                  -- corrected to a different base: retag by catalog search
                  rcases Option.map_eq_some'.mp h with ⟨tag, htag, hout⟩
                  cases hout
                  refine ⟨List.length_set seq rpos c, ?_, ?_, ?_, ?_⟩
                  · intro i hi
                    exact List.getElem?_set_ne (fun hc => hi hc.symm)
                  · intro h1
                    constructor
                    · simp [cmpLen_cons, cmpLen_nil, h1]
                    · intro o ho
                      simp only [List.mem_singleton] at ho
                      subst ho
                      simp only []
                      omega
                  · have : ({ op with varId := some tag } :: []).map Cmp.type
                        = [op.type] := rfl
                    rw [this, hop]
                    simp
                  · rw [consensusOkN_cons, consensusOkN_nil, Bool.and_true]
                    unfold misOkN
                    have htype : ({ op with varId := some tag } : Cmp).type
                        = op.type := rfl
                    rw [htype, hop]
                    have hsup : supportAt mp ({ op with varId := some tag } : Cmp).left
                        = c :: cs := by
                      simp [supportAt, hmp]
                    have hget : (seq.set rpos c)[rpos]? = some c :=
                      List.getElem?_set_eq hrplt
                    simp [hsup, hget]

theorem correctOne_spec (refSeq : List Char) (mp : List (List Char))
    (vars : List (String × Variant)) (varList : List (Nat × String))
    (op : Cmp) (seq : List Char) (rpos : Nat) {seg : List Cmp} {sF : List Char}
    {n : Nat} (hop1 : op.type = CmpType.mismatch → op.length = 1)
    (h : correctOne refSeq mp vars varList op seq rpos = some (seg, sF, n)) :
    sF.length = seq.length
    ∧ (∀ i, i < rpos → sF[i]? = seq[i]?)
    ∧ cmpLen seg = op.length
    ∧ (∀ o ∈ seg, 0 < o.length)
    ∧ consensusOkN mp sF rpos seg = true := by
  unfold correctOne at h
  cases htype : op.type with
  | matchOp =>
    rw [htype] at h
    rcases processMatch_spec refSeq mp vars varList op.left rpos op.length seq h
      with ⟨h1, h2, h3, h4, _, h6⟩
    exact ⟨h1, h2, h3, h4, h6⟩
  | mismatch =>
    rw [htype] at h
    rcases correctMismatch_spec refSeq mp vars varList op seq rpos htype h
      with ⟨h1, h2, h3, _, h5⟩
    rcases h3 (hop1 htype) with ⟨h3a, h3b⟩
    refine ⟨h1, ?_, ?_, h3b, h5⟩
    · intro i hi
      exact h2 i (by omega)
    · rw [h3a, hop1 htype]
  | insertion =>
    rw [htype] at h
    exact Option.noConfusion h
  | deletion =>
    rw [htype] at h
    exact Option.noConfusion h

theorem misOkN_congr (mp : List (List Char)) (s s' : List Char) (r : Nat) (op : Cmp)
    (hs : s'[r]? = s[r]?) : misOkN mp s' r op = misOkN mp s r op := by
  unfold misOkN
  cases op.type <;> simp [hs]

theorem consensusOkN_congr (mp : List (List Char)) :
    ∀ (l : List Cmp) (r : Nat) (s s' : List Char),
    (∀ op ∈ l, 0 < op.length) →
    (∀ i, i < r + cmpLen l → s'[i]? = s[i]?) →
    consensusOkN mp s' r l = consensusOkN mp s r l := by
  intro l
  induction l with
  | nil => intro r s s' _ _; rfl
  | cons op t ih =>
    intro r s s' hpos hpres
    rw [consensusOkN_cons, consensusOkN_cons]
    have hlen : 0 < op.length := hpos op (List.mem_cons_self op t)
    have h1 : misOkN mp s' r op = misOkN mp s r op := by
      apply misOkN_congr
      apply hpres
      have := cmpLen_cons op t
      omega
    have h2 : consensusOkN mp s' (r + op.length) t
        = consensusOkN mp s (r + op.length) t := by
      apply ih (r + op.length) s s'
      · intro o ho
        exact hpos o (List.mem_cons_of_mem op ho)
      · intro i hi
        apply hpres
        have := cmpLen_cons op t
        omega
    rw [h1, h2]

theorem consensusOkN_of_no_support (mp : List (List Char)) (s : List Char) :
    ∀ (l : List Cmp) (r : Nat), (∀ op ∈ l, mp.length ≤ op.left) →
    consensusOkN mp s r l = true := by
  intro l
  induction l with
  | nil => intro r _; rfl
  | cons op t ih =>
    intro r hno
    rw [consensusOkN_cons, Bool.and_eq_true]
    constructor
    · unfold misOkN
      cases op.type
      case mismatch =>
        have hsup : supportAt mp op.left = [] := by
          have : mp[op.left]? = none :=
            List.getElem?_eq_none_iff.mpr (hno op (List.mem_cons_self op t))
          simp [supportAt, this]
        simp [hsup]
      all_goals rfl
    · exact ih (r + op.length) (fun o ho => hno o (List.mem_cons_of_mem op ho))

theorem correctLoop_pres (refSeq : List Char) (mp : List (List Char))
    (vars : List (String × Variant)) (varList : List (Nat × String)) :
    ∀ (l : List Cmp) (seq : List Char) (rpos : Nat) {out : List Cmp}
    {sF : List Char} {n : Nat},
    correctLoop refSeq mp vars varList l seq rpos = some (out, sF, n) →
    sF.length = seq.length ∧ ∀ i, i < rpos → sF[i]? = seq[i]? := by
  intro l
  induction l with
  | nil =>
    intro seq rpos out sF n h
    cases h
    exact ⟨rfl, fun i _ => rfl⟩
  | cons op rest ih =>
    intro seq rpos out sF n h
    rw [correctLoop] at h
    split at h
    · exact Option.noConfusion h
    · split at h
      · cases h
        exact ⟨rfl, fun i _ => rfl⟩
      · rcases Option.bind_eq_some.mp h with ⟨out1, hone, h2⟩
        rcases Option.map_eq_some'.mp h2 with ⟨out2, hrec, hout⟩
        obtain ⟨seg1, seq1, n1⟩ := out1
        obtain ⟨out2', seq2, n2⟩ := out2
        cases hout
        rcases ih seq1 (rpos + op.length) hrec with ⟨hl2, hp2⟩
        have hone' : ∀ i, i < rpos → seq1[i]? = seq[i]? := by
          unfold correctOne at hone
          cases htype : op.type with
          | matchOp =>
            rw [htype] at hone
            exact (processMatch_spec refSeq mp vars varList op.left rpos op.length
              seq hone).2.1
          | mismatch =>
            rw [htype] at hone
            intro i hi
            exact (correctMismatch_spec refSeq mp vars varList op seq rpos htype
              hone).2.1 i (by omega)
          | insertion => rw [htype] at hone; exact Option.noConfusion hone
          | deletion => rw [htype] at hone; exact Option.noConfusion hone
        have hlen1 : seq1.length = seq.length := by
          unfold correctOne at hone
          cases htype : op.type with
          | matchOp =>
            rw [htype] at hone
            exact (processMatch_spec refSeq mp vars varList op.left rpos op.length
              seq hone).1
          | mismatch =>
            rw [htype] at hone
            exact (correctMismatch_spec refSeq mp vars varList op seq rpos htype
              hone).1
          | insertion => rw [htype] at hone; exact Option.noConfusion hone
          | deletion => rw [htype] at hone; exact Option.noConfusion hone
        constructor
        · rw [hl2, hlen1]
        · intro i hi
          rw [hp2 i (by omega), hone' i hi]

theorem correctLoop_consensus (refSeq : List Char) (mp : List (List Char))
    (vars : List (String × Variant)) (varList : List (Nat × String))
    (hmp : mp.length ≤ refSeq.length) :
    ∀ (l : List Cmp) (seq : List Char) (rpos : Nat) {out : List Cmp}
    {sF : List Char} {n : Nat},
    correctLoop refSeq mp vars varList l seq rpos = some (out, sF, n) →
    List.Pairwise (fun a b : Cmp => a.left ≤ b.left) l →
    (∀ op ∈ l, op.type = CmpType.mismatch → op.length = 1) →
    consensusOkN mp sF rpos out = true := by
  intro l
  induction l with
  | nil =>
    intro seq rpos out sF n h _ _
    cases h
    rfl
  | cons op rest ih =>
    intro seq rpos out sF n h hsorted hmis1
    rw [correctLoop] at h
    split at h
    · exact Option.noConfusion h
    · split at h
      · next hbrk =>
        cases h
        apply consensusOkN_of_no_support
        intro o ho
        rcases List.mem_cons.mp ho with rfl | ho'
        · omega
        · have := (List.pairwise_cons.mp hsorted).1 o ho'
          omega
      · next hbrk =>
        rcases Option.bind_eq_some.mp h with ⟨out1, hone, h2⟩
        rcases Option.map_eq_some'.mp h2 with ⟨out2, hrec, hout⟩
        obtain ⟨seg1, seq1, n1⟩ := out1
        obtain ⟨out2', seq2, n2⟩ := out2
        cases hout
        rcases correctOne_spec refSeq mp vars varList op seq rpos
          (hmis1 op (List.mem_cons_self op rest)) hone
          with ⟨hc1, hc2, hc3, hc4, hc5⟩
        rcases correctLoop_pres refSeq mp vars varList rest seq1 (rpos + op.length)
          hrec with ⟨hp1, hp2⟩
        rw [consensusOkN_append, Bool.and_eq_true]
        constructor
        · rw [consensusOkN_congr mp seg1 rpos seq1 seq2 hc4 ?_]
          · exact hc5
          · intro i hi
            apply hp2
            rw [hc3] at hi
            omega
        · rw [hc3]
          exact ih seq1 (rpos + op.length) hrec (List.pairwise_cons.mp hsorted).2
            (fun o ho ht => hmis1 o (List.mem_cons_of_mem op ho) ht)

theorem consensusOkN_combineMatches (mp : List (List Char)) (s : List Char) :
    ∀ (l : List Cmp) (r : Nat),
    consensusOkN mp s r (combineMatches l) = consensusOkN mp s r l := by
  intro l
  induction l using combineMatches.induct with
  | case1 a b rest hab ih =>
    intro r
    rw [combineMatches, if_pos hab, ih, consensusOkN_cons, consensusOkN_cons,
      consensusOkN_cons]
    rw [misOkN_matchOp mp s r a hab.1, misOkN_matchOp mp s (r + a.length) b hab.2,
      misOkN_matchOp mp s r ⟨CmpType.matchOp, a.left, a.length + b.length, none⟩ rfl]
    simp only [Bool.true_and]
    have : r + (a.length + b.length) = r + a.length + b.length := by omega
    rw [this]
  | case2 a b rest hab ih =>
    intro r
    rw [combineMatches, if_neg hab, consensusOkN_cons, consensusOkN_cons, ih]
  | case3 l hne =>
    intro r
    cases l with
    | nil => rw [combineMatches.eq_def]
    | cons a t =>
      cases t with
      | nil => rw [combineMatches.eq_def]
      | cons b rest => exact absurd rfl (hne a b rest)

/-- C2 (amended): for a comparison list as the decoder produces it —
positions non-decreasing, mismatch ops one base long, pileup no longer than
the reference — every mismatch op surviving `error_correct` has its read base
(in the corrected read) inside the pileup support set at the op's position,
or rewritten to the ambiguous base `'N'`, whenever that set is non-empty.
(As stated, without the `'N'` escape, the claim is false: see the C2
counterexample, where an ambiguous support set forces an `'N'` rewrite that
lies outside the support set.) -/
theorem C2_error_correct_consensus (refSeq seq : List Char) (rpos : Nat)
    (mp : List (List Char)) (vars : List (String × Variant))
    (varList : List (Nat × String)) (cmpList : List Cmp)
    (hsorted : List.Pairwise (fun a b : Cmp => a.left ≤ b.left) cmpList)
    (hmis1 : ∀ op ∈ cmpList, op.type = CmpType.mismatch → op.length = 1)
    (hmp : mp.length ≤ refSeq.length)
    {out : List Cmp} {seqF : List Char} {n : Nat}
    (h : error_correct refSeq seq rpos mp vars varList cmpList = some (out, seqF, n)) :
    consensusOkN mp seqF rpos out = true := by
  unfold error_correct at h
  rcases Option.map_eq_some'.mp h with ⟨out0, hloop, hout⟩
  obtain ⟨out0', seq0, n0⟩ := out0
  cases hout
  rw [consensusOkN_combineMatches]
  exact correctLoop_consensus refSeq mp vars varList hmp cmpList seq rpos hloop
    hsorted hmis1

/-- Witness for C2 at a concrete read: a mismatch base `A` against support
set `{G}` is corrected to `G` and the corrected list passes the consensus
check. -/
theorem C2_error_correct_consensus_witness :
    List.Pairwise (fun a b : Cmp => a.left ≤ b.left)
      [(⟨CmpType.mismatch, 0, 1, some "unknown"⟩ : Cmp)]
    ∧ (∀ op ∈ [(⟨CmpType.mismatch, 0, 1, some "unknown"⟩ : Cmp)],
        op.type = CmpType.mismatch → op.length = 1)
    ∧ ([['G']] : List (List Char)).length ≤ (['G'] : List Char).length
    ∧ error_correct ['G'] ['A'] 0 [['G']] [] []
        [⟨CmpType.mismatch, 0, 1, some "unknown"⟩]
        = some ([⟨CmpType.matchOp, 0, 1, none⟩], ['G'], 1)
    ∧ consensusOkN [['G']] ['G'] 0 [⟨CmpType.matchOp, 0, 1, none⟩] = true :=
  ⟨by decide, by decide, by decide,
   by simp [error_correct, correctLoop, correctOne, correctMismatch, combineMatches],
   @C2_error_correct_consensus ['G'] ['A'] 0 [['G']] [] []
     [⟨CmpType.mismatch, 0, 1, some "unknown"⟩] (by decide) (by decide) (by decide)
     [⟨CmpType.matchOp, 0, 1, none⟩] ['G'] 1
     (by simp [error_correct, correctLoop, correctOne, correctMismatch,
       combineMatches])⟩

/-- C2 counterexample: with support set `{C, T}` at position 0, the mismatch
base `A` is rewritten to the ambiguous base `'N'`, which still lies outside
the (non-empty) support set — the claim as stated fails on the surviving
mismatch op. -/
theorem C2_counterexample :
    error_correct ['G'] ['A'] 0 [['C', 'T']] [] []
      [⟨CmpType.mismatch, 0, 1, some "unknown"⟩]
      = some ([⟨CmpType.mismatch, 0, 1, some "unknown"⟩], ['N'], 0)
    ∧ consensusStrict [['C', 'T']] ['N'] 0
        [⟨CmpType.mismatch, 0, 1, some "unknown"⟩] = false
    ∧ supportAt [['C', 'T']] 0 = ['C', 'T']
    ∧ ('N' ∉ (['C', 'T'] : List Char)) :=
  ⟨by simp [error_correct, correctLoop, correctOne, correctMismatch, combineMatches],
   by decide, by decide, by decide⟩

/-- C10: within `error_correct`, the correction count of one op equals, for
a match run, the number of mismatch ops in its replacement segment (one per
rewritten position), and for an existing mismatch op, 1 exactly when the op
was rewritten to the reference base and became a match — rewriting to `'N'`
or to a different non-reference base does not count. -/
theorem C10_correction_count_per_op (refSeq : List Char) (mp : List (List Char))
    (vars : List (String × Variant)) (varList : List (Nat × String))
    (op : Cmp) (seq : List Char) (rpos : Nat) {seg : List Cmp} {sF : List Char}
    {n : Nat}
    (h : correctOne refSeq mp vars varList op seq rpos = some (seg, sF, n)) :
    n = if op.type = CmpType.matchOp
        then seg.countP (fun c => c.type == CmpType.mismatch)
        else if seg.map Cmp.type = [CmpType.matchOp] then 1 else 0 := by
  unfold correctOne at h
  cases htype : op.type with
  | matchOp =>
    rw [htype] at h
    rw [if_pos rfl]
    exact (processMatch_spec refSeq mp vars varList op.left rpos op.length seq h).2.2.2.2.1
  | mismatch =>
    rw [htype] at h
    rw [if_neg (by simp [htype])]
    exact (correctMismatch_spec refSeq mp vars varList op seq rpos htype h).2.2.2.1
  | insertion =>
    rw [htype] at h
    exact Option.noConfusion h
  | deletion =>
    rw [htype] at h
    exact Option.noConfusion h

/-- Witness for C10: a 2-long match run whose second base is rewritten — the
count 1 equals the number of mismatch ops in the replacement segment. -/
theorem C10_correction_count_per_op_witness :
    (1 : Nat) = if (⟨CmpType.matchOp, 0, 2, none⟩ : Cmp).type = CmpType.matchOp
        then ([⟨CmpType.matchOp, 0, 1, none⟩,
               ⟨CmpType.mismatch, 1, 1, some "unknown"⟩] : List Cmp).countP
          (fun c => c.type == CmpType.mismatch)
        else if ([⟨CmpType.matchOp, 0, 1, none⟩,
               ⟨CmpType.mismatch, 1, 1, some "unknown"⟩] : List Cmp).map Cmp.type
            = [CmpType.matchOp] then 1 else 0 :=
  @C10_correction_count_per_op ['G', 'G'] [['G'], ['T']] [] []
    ⟨CmpType.matchOp, 0, 2, none⟩ ['G', 'G'] 0
    [⟨CmpType.matchOp, 0, 1, none⟩, ⟨CmpType.mismatch, 1, 1, some "unknown"⟩]
    ['G', 'T'] 1
    (by simp [correctOne, processMatch, pmGo, searchSingleVar, findSingleVar,
      lower_bound])

/-! ### Representative alleles (C6) -/

theorem avInsert_keys_mem (allele var b : String) :
    ∀ (acc : List (String × List String)),
    (b ∈ (avInsert acc allele var).map Prod.fst ↔ b ∈ acc.map Prod.fst ∨ b = allele) := by
  intro acc
  induction acc with
  | nil => simp [avInsert]
  | cons e t ih =>
    obtain ⟨a, vs⟩ := e
    by_cases hae : a = allele
    · simp [avInsert, if_pos hae, hae]
      tauto
    · simp only [avInsert, if_neg hae, List.map_cons, List.mem_cons, ih]
      tauto

theorem avInsert_keys_nodup (allele var : String) :
    ∀ (acc : List (String × List String)), (acc.map Prod.fst).Nodup →
    ((avInsert acc allele var).map Prod.fst).Nodup := by
  intro acc
  induction acc with
  | nil => intro _; simp [avInsert]
  | cons e t ih =>
    obtain ⟨a, vs⟩ := e
    intro hnd
    simp only [List.map_cons, List.nodup_cons] at hnd
    by_cases hae : a = allele
    · simp only [avInsert, if_pos hae, List.map_cons, List.nodup_cons]
      exact hnd
    · simp only [avInsert, if_neg hae, List.map_cons, List.nodup_cons]
      constructor
      · intro hc
        rcases (avInsert_keys_mem allele var a t).mp hc with hc' | hc'
        · exact hnd.1 hc'
        · exact hae hc'
      · exact ih hnd.2

theorem avAddAlleles_keys_mem (inAlleles : Option (List String)) (var b : String) :
    ∀ (as : List String) (acc : List (String × List String)),
    (b ∈ (avAddAlleles inAlleles var acc as).map Prod.fst
      ↔ b ∈ acc.map Prod.fst ∨ (b ∈ as ∧ poolOk inAlleles b)) := by
  intro as
  induction as with
  | nil => intro acc; simp [avAddAlleles]
  | cons allele rest ih =>
    intro acc
    rw [avAddAlleles, ih]
    by_cases hp : poolOk inAlleles allele
    · rw [if_pos hp, avInsert_keys_mem]
      constructor
      · rintro ((h | rfl) | h)
        · exact Or.inl h
        · exact Or.inr ⟨List.mem_cons_self _ _, hp⟩
        · exact Or.inr ⟨List.mem_cons_of_mem _ h.1, h.2⟩
      · rintro (h | ⟨hmem, hpb⟩)
        · exact Or.inl (Or.inl h)
        · rcases List.mem_cons.mp hmem with rfl | hmem'
          · exact Or.inl (Or.inr rfl)
          · exact Or.inr ⟨hmem', hpb⟩
    · rw [if_neg hp]
      constructor
      · rintro (h | h)
        · exact Or.inl h
        · exact Or.inr ⟨List.mem_cons_of_mem _ h.1, h.2⟩
      · rintro (h | ⟨hmem, hpb⟩)
        · exact Or.inl h
        · rcases List.mem_cons.mp hmem with rfl | hmem'
          · exact absurd hpb hp
          · exact Or.inr ⟨hmem', hpb⟩

theorem avAddAlleles_keys_nodup (inAlleles : Option (List String)) (var : String) :
    ∀ (as : List String) (acc : List (String × List String)),
    (acc.map Prod.fst).Nodup →
    ((avAddAlleles inAlleles var acc as).map Prod.fst).Nodup := by
  intro as
  induction as with
  | nil => intro acc h; exact h
  | cons allele rest ih =>
    intro acc hnd
    rw [avAddAlleles]
    apply ih
    by_cases hp : poolOk inAlleles allele
    · rw [if_pos hp]
      exact avInsert_keys_nodup allele var acc hnd
    · rw [if_neg hp]
      exact hnd

theorem buildAlleleVars_keys_mem (exonVars : List String)
    (inAlleles : Option (List String)) (b : String) :
    ∀ (links : List (String × List String)) (acc : List (String × List String)),
    (b ∈ (links.foldl (fun acc e =>
        if e.1 ∈ exonVars then avAddAlleles inAlleles e.1 acc e.2 else acc)
        acc).map Prod.fst
      ↔ b ∈ acc.map Prod.fst
        ∨ ∃ e ∈ links, e.1 ∈ exonVars ∧ b ∈ e.2 ∧ poolOk inAlleles b) := by
  intro links
  induction links with
  | nil => intro acc; simp
  | cons e rest ih =>
    intro acc
    rw [List.foldl_cons, ih]
    by_cases hex : e.1 ∈ exonVars
    · rw [if_pos hex, avAddAlleles_keys_mem]
      constructor
      · rintro ((h | h) | h)
        · exact Or.inl h
        · exact Or.inr ⟨e, List.mem_cons_self _ _, hex, h.1, h.2⟩
        · rcases h with ⟨f, hf, hfx, hbf, hpb⟩
          exact Or.inr ⟨f, List.mem_cons_of_mem _ hf, hfx, hbf, hpb⟩
      · rintro (h | ⟨f, hf, hfx, hbf, hpb⟩)
        · exact Or.inl (Or.inl h)
        · rcases List.mem_cons.mp hf with rfl | hf'
          · exact Or.inl (Or.inr ⟨hbf, hpb⟩)
          · exact Or.inr ⟨f, hf', hfx, hbf, hpb⟩
    · rw [if_neg hex]
      constructor
      · rintro (h | ⟨f, hf, hfx, hbf, hpb⟩)
        · exact Or.inl h
        · exact Or.inr ⟨f, List.mem_cons_of_mem _ hf, hfx, hbf, hpb⟩
      · rintro (h | ⟨f, hf, hfx, hbf, hpb⟩)
        · exact Or.inl h
        · rcases List.mem_cons.mp hf with rfl | hf'
          · exact absurd hfx hex
          · exact Or.inr ⟨f, hf', hfx, hbf, hpb⟩

theorem buildAlleleVars_keys_nodup (exonVars : List String)
    (inAlleles : Option (List String)) :
    ∀ (links : List (String × List String)) (acc : List (String × List String)),
    (acc.map Prod.fst).Nodup →
    ((links.foldl (fun acc e =>
        if e.1 ∈ exonVars then avAddAlleles inAlleles e.1 acc e.2 else acc)
        acc).map Prod.fst).Nodup := by
  intro links
  induction links with
  | nil => intro acc h; exact h
  | cons e rest ih =>
    intro acc hnd
    rw [List.foldl_cons]
    apply ih
    by_cases hex : e.1 ∈ exonVars
    · rw [if_pos hex]
      exact avAddAlleles_keys_nodup inAlleles e.1 e.2 acc hnd
    · rw [if_neg hex]
      exact hnd

theorem groupInsert_flatten_count (key : List String) (al a : String) :
    ∀ (gs : List (List String × List String)),
    (((groupInsert gs key al).map Prod.snd).flatten).count a
      = ((gs.map Prod.snd).flatten).count a + (if al = a then 1 else 0) := by
  intro gs
  induction gs with
  | nil =>
    simp only [groupInsert, List.map_cons, List.map_nil, List.flatten]
    by_cases h : al = a
    · simp [h, List.count_cons]
    · simp [h, List.count_cons, Ne.symm h]
  | cons g t ih =>
    obtain ⟨k, mem⟩ := g
    by_cases hk : k = key
    · simp only [groupInsert, if_pos hk, List.map_cons, List.flatten_cons,
        List.count_append]
      by_cases h : al = a
      · simp [h, List.count_cons]
        omega
      · simp [List.count_cons, h, Ne.symm h]
    · simp only [groupInsert, if_neg hk, List.map_cons, List.flatten_cons,
        List.count_append, ih]
      omega

theorem allele_groups_flatten_count (a : String) :
    ∀ (av : List (String × List String)) (gs : List (List String × List String)),
    (((av.foldl (fun gs e => groupInsert gs e.2 e.1) gs).map Prod.snd).flatten).count a
      = ((gs.map Prod.snd).flatten).count a + (av.map Prod.fst).count a := by
  intro av
  induction av with
  | nil => intro gs; simp
  | cons e t ih =>
    intro gs
    rw [List.foldl_cons, ih, groupInsert_flatten_count]
    simp only [List.map_cons, List.count_cons]
    by_cases h : e.1 = a
    · have hbeq : (e.1 == a) = true := by
        simp [h]
      simp only [if_pos h, hbeq, if_true]
      omega
    · have hbeq : (e.1 == a) = false := by
        simp [h]
      simp only [if_neg h, hbeq]
      simp

theorem groupInsert_nonempty (key : List String) (al : String) :
    ∀ (gs : List (List String × List String)),
    (∀ g ∈ gs, g.2 ≠ []) → ∀ g ∈ groupInsert gs key al, g.2 ≠ [] := by
  intro gs
  induction gs with
  | nil =>
    intro _ g hg
    simp only [groupInsert, List.mem_singleton] at hg
    subst hg
    simp
  | cons g0 t ih =>
    obtain ⟨k, mem⟩ := g0
    intro hne g hg
    by_cases hk : k = key
    · simp only [groupInsert, if_pos hk, List.mem_cons] at hg
      rcases hg with rfl | hg'
      · simp
      · exact hne g (List.mem_cons_of_mem _ hg')
    · simp only [groupInsert, if_neg hk, List.mem_cons] at hg
      rcases hg with rfl | hg'
      · exact hne (k, mem) (List.mem_cons_self _ _)
      · exact ih (fun g' hg' => hne g' (List.mem_cons_of_mem _ hg')) g hg'

theorem allele_groups_nonempty :
    ∀ (av : List (String × List String)) (gs : List (List String × List String)),
    (∀ g ∈ gs, g.2 ≠ []) →
    ∀ g ∈ av.foldl (fun gs e => groupInsert gs e.2 e.1) gs, g.2 ≠ [] := by
  intro av
  induction av with
  | nil => intro gs h; exact h
  | cons e t ih =>
    intro gs h
    rw [List.foldl_cons]
    exact ih _ (groupInsert_nonempty e.2 e.1 gs h)

theorem buildReps_snd :
    ∀ (gs : List (List String × List String)), (∀ g ∈ gs, g.2 ≠ []) →
    ((buildReps gs).2.map Prod.snd) = gs.map Prod.snd := by
  intro gs
  induction gs with
  | nil => intro _; rfl
  | cons g t ih =>
    intro hne
    cases hmem : g.2 with
    | nil => exact absurd hmem (hne g (List.mem_cons_self g t))
    | cons rep more =>
      rw [buildReps, hmem]
      simp only [List.map_cons]
      rw [ih (fun g' hg' => hne g' (List.mem_cons_of_mem _ hg'))]
      rw [← hmem]

theorem map_fst_pair (rep : String) :
    ∀ (ms : List String), List.map (Prod.fst ∘ fun m => (m, rep)) ms = ms := by
  intro ms
  induction ms with
  | nil => rfl
  | cons m t ih =>
    simp only [List.map_cons, ih]
    rfl

theorem buildReps_fst :
    ∀ (gs : List (List String × List String)), (∀ g ∈ gs, g.2 ≠ []) →
    ((buildReps gs).1.map Prod.fst) = (gs.map Prod.snd).flatten := by
  intro gs
  induction gs with
  | nil => intro _; rfl
  | cons g t ih =>
    intro hne
    cases hmem : g.2 with
    | nil => exact absurd hmem (hne g (List.mem_cons_self g t))
    | cons rep more =>
      rw [buildReps, hmem]
      simp only [List.map_cons, List.flatten_cons, List.map_append, List.map_map]
      rw [ih (fun g' hg' => hne g' (List.mem_cons_of_mem _ hg'))]
      rw [hmem]
      have hmap := map_fst_pair rep (rep :: more)
      simp only [List.map_cons] at hmap
      rw [List.cons.injEq] at hmap
      rw [hmap.2]

/-- C6 (amended): the groups produced by `get_rep_alleles` partition exactly
the alleles that carry at least one exonic variant in the linkage table and
pass the optional candidate-pool filter: each such allele occurs in exactly
one group's member list, and alleles of the pool with no exonic variant
occur in none.  The member→representative pairs cover the same alleles, one
pair each. -/
theorem C6_rep_alleles_partition (links : List (String × List String))
    (exonVars : List String) (inAlleles : Option (List String)) (a : String) :
    (((get_rep_alleles links exonVars inAlleles).2.map Prod.snd).flatten).count a
      = (if inRepPool links exonVars inAlleles a then 1 else 0)
    ∧ (((get_rep_alleles links exonVars inAlleles).1.map Prod.fst)).count a
      = (if inRepPool links exonVars inAlleles a then 1 else 0) := by
  have hne : ∀ g ∈ allele_groups (buildAlleleVars links exonVars inAlleles),
      g.2 ≠ [] := by
    apply allele_groups_nonempty
    intro g hg
    cases hg
  have hnd : ((buildAlleleVars links exonVars inAlleles).map Prod.fst).Nodup := by
    apply buildAlleleVars_keys_nodup
    simp
  have hkeys : (a ∈ (buildAlleleVars links exonVars inAlleles).map Prod.fst
      ↔ inRepPool links exonVars inAlleles a) := by
    rw [buildAlleleVars, buildAlleleVars_keys_mem]
    simp [inRepPool]
  have hcount : ((buildAlleleVars links exonVars inAlleles).map Prod.fst).count a
      = (if inRepPool links exonVars inAlleles a then 1 else 0) := by
    by_cases hin : inRepPool links exonVars inAlleles a
    · rw [if_pos hin]
      exact List.count_eq_one_of_mem hnd (hkeys.mpr hin)
    · rw [if_neg hin]
      exact List.count_eq_zero_of_not_mem (fun hc => hin (hkeys.mp hc))
  have hflat : (((allele_groups (buildAlleleVars links exonVars inAlleles)).map
      Prod.snd).flatten).count a
      = ((buildAlleleVars links exonVars inAlleles).map Prod.fst).count a := by
    rw [allele_groups, allele_groups_flatten_count]
    simp
  constructor
  · rw [get_rep_alleles, buildReps_snd _ hne, hflat, hcount]
  · rw [get_rep_alleles, buildReps_fst _ hne, hflat, hcount]

/-- C6 counterexample: allele `A2` of the candidate pool carries no exonic
variant in the linkage table, so it appears in no representative group —
the union of the groups' members is `{A1}`, not the input pool
`{A1, A2}`. -/
theorem C6_counterexample :
    get_rep_alleles [("v1", ["A1"])] ["v1"] (some ["A1", "A2"])
      = ([("A1", "A1")], [("A1", ["A1"])])
    ∧ "A2" ∈ ["A1", "A2"]
    ∧ (([("A1", ["A1"])].map Prod.snd).flatten = ["A1"])
    ∧ "A2" ∉ (["A1"] : List String) := by decide

/-! ### Best-pair selection (C8) -/

theorem foldl_min_le_init (l : List Int) : ∀ (init : Int), l.foldl min init ≤ init := by
  induction l with
  | nil => intro init; exact le_refl _
  | cons a t ih =>
    intro init
    exact le_trans (ih (min init a)) (min_le_left init a)

theorem foldl_min_le_mem (l : List Int) : ∀ (init x : Int), x ∈ l →
    l.foldl min init ≤ x := by
  induction l with
  | nil => intro _ x hx; cases hx
  | cons a t ih =>
    intro init x hx
    rcases List.mem_cons.mp hx with rfl | hx'
    · exact le_trans (foldl_min_le_init t (min init x)) (min_le_right init x)
    · exact ih (min init a) x hx'

theorem foldl_min_mem (l : List Int) : ∀ (init : Int),
    l.foldl min init = init ∨ l.foldl min init ∈ l := by
  induction l with
  | nil => intro init; exact Or.inl rfl
  | cons a t ih =>
    intro init
    rcases ih (min init a) with h | h
    · rcases min_cases init a with ⟨hm, _⟩ | ⟨hm, _⟩
      · exact Or.inl (by rw [List.foldl_cons, h, hm])
      · exact Or.inr (by rw [List.foldl_cons, h, hm]; exact List.mem_cons_self a t)
    · exact Or.inr (List.mem_cons_of_mem a h)

theorem addHt_mem (x : Ht) (s : List Ht) (h : Ht) :
    x ∈ addHt s h ↔ x ∈ s ∨ x = h := by
  unfold addHt
  by_cases hm : h ∈ s
  · rw [if_pos hm]
    constructor
    · exact Or.inl
    · rintro (hx | rfl)
      · exact hx
      · exact hm
  · rw [if_neg hm]
    simp

theorem foldl_addHt_mem (f : Ht × Ht → Ht) (x : Ht) :
    ∀ (ps : List (Ht × Ht)) (s : List Ht),
    (x ∈ ps.foldl (fun s p => addHt s (f p)) s ↔ x ∈ s ∨ ∃ q ∈ ps, f q = x) := by
  intro ps
  induction ps with
  | nil => intro s; simp
  | cons p t ih =>
    intro s
    rw [List.foldl_cons, ih, addHt_mem]
    constructor
    · rintro ((hx | rfl) | ⟨q, hq, rfl⟩)
      · exact Or.inl hx
      · exact Or.inr ⟨p, List.mem_cons_self p t, rfl⟩
      · exact Or.inr ⟨q, List.mem_cons_of_mem p hq, rfl⟩
    · rintro (hx | ⟨q, hq, rfl⟩)
      · exact Or.inl (Or.inl hx)
      · rcases List.mem_cons.mp hq with rfl | hq'
        · exact Or.inl (Or.inr rfl)
        · exact Or.inr ⟨q, hq', rfl⟩

theorem allPairs_mem (ls rs : List Ht) (q : Ht × Ht) :
    q ∈ allPairs ls rs ↔ q.1 ∈ ls ∧ q.2 ∈ rs := by
  unfold allPairs
  rw [List.mem_flatMap]
  constructor
  · rintro ⟨l, hl, hq⟩
    rcases List.mem_map.mp hq with ⟨r, hr, rfl⟩
    exact ⟨hl, hr⟩
  · rintro ⟨h1, h2⟩
    exact ⟨q.1, h1, List.mem_map.mpr ⟨q.2, h2, rfl⟩⟩

theorem pickLoop_spec (expected : Int) :
    ∀ (ps : List (Ht × Ht)) (best : Int) (picked : List (Ht × Ht)),
    (∀ q ∈ picked, |expected - interDist q.1 q.2| = best) →
    (pickLoop expected ps best picked).1
      = (ps.map (fun q => |expected - interDist q.1 q.2|)).foldl min best
    ∧ (∀ q, q ∈ (pickLoop expected ps best picked).2 ↔
        ((q ∈ picked ∧ (pickLoop expected ps best picked).1 = best)
          ∨ (q ∈ ps ∧ |expected - interDist q.1 q.2|
              = (pickLoop expected ps best picked).1))) := by
  intro ps
  induction ps with
  | nil =>
    intro best picked hinv
    rw [pickLoop]
    constructor
    · rfl
    · intro q
      constructor
      · intro hq
        exact Or.inl ⟨hq, rfl⟩
      · rintro (⟨hq, _⟩ | ⟨hq, _⟩)
        · exact hq
        · cases hq
  | cons p t ih =>
    intro best picked hinv
    rw [pickLoop]
    by_cases hlt : |expected - interDist p.1 p.2| < best
    · rw [if_pos hlt]
      rcases ih |expected - interDist p.1 p.2| [p]
        (by intro q hq; rcases List.mem_singleton.mp hq with rfl; rfl)
        with ⟨hb, hm⟩
      have hble : (pickLoop expected t |expected - interDist p.1 p.2| [p]).1
          ≤ |expected - interDist p.1 p.2| := by
        rw [hb]
        exact foldl_min_le_init _ _
      constructor
      · rw [hb, List.map_cons, List.foldl_cons]
        have : min best |expected - interDist p.1 p.2|
            = |expected - interDist p.1 p.2| := by omega
        rw [this]
      · intro q
        rw [hm q]
        constructor
        · rintro (⟨hq, hbe⟩ | ⟨hq, hbe⟩)
          · rcases List.mem_singleton.mp hq with rfl
            exact Or.inr ⟨List.mem_cons_self q t, by omega⟩
          · exact Or.inr ⟨List.mem_cons_of_mem p hq, hbe⟩
        · rintro (⟨hq, hbe⟩ | ⟨hq, hbe⟩)
          · have := hinv q hq
            omega
          · rcases List.mem_cons.mp hq with rfl | hq'
            · exact Or.inl ⟨List.mem_singleton_self q, by omega⟩
            · exact Or.inr ⟨hq', hbe⟩
    · rw [if_neg hlt]
      by_cases heq : |expected - interDist p.1 p.2| = best
      · rw [if_pos heq]
        rcases ih best (picked ++ [p])
          (by
            intro q hq
            rcases List.mem_append.mp hq with hq' | hq'
            · exact hinv q hq'
            · rcases List.mem_singleton.mp hq' with rfl
              exact heq)
          with ⟨hb, hm⟩
        constructor
        · rw [hb, List.map_cons, List.foldl_cons]
          have : min best |expected - interDist p.1 p.2| = best := by omega
          rw [this]
        · intro q
          rw [hm q]
          constructor
          · rintro (⟨hq, hbe⟩ | ⟨hq, hbe⟩)
            · rcases List.mem_append.mp hq with hq' | hq'
              · exact Or.inl ⟨hq', hbe⟩
              · rcases List.mem_singleton.mp hq' with rfl
                exact Or.inr ⟨List.mem_cons_self q t, by omega⟩
            · exact Or.inr ⟨List.mem_cons_of_mem p hq, hbe⟩
          · rintro (⟨hq, hbe⟩ | ⟨hq, hbe⟩)
            · exact Or.inl ⟨List.mem_append_left _ hq, hbe⟩
            · rcases List.mem_cons.mp hq with rfl | hq'
              · exact Or.inl ⟨List.mem_append_right _ (List.mem_singleton_self q),
                  by omega⟩
              · exact Or.inr ⟨hq', hbe⟩
      · rw [if_neg heq]
        rcases ih best picked hinv with ⟨hb, hm⟩
        have hble : (pickLoop expected t best picked).1 ≤ best := by
          rw [hb]
          exact foldl_min_le_init _ _
        constructor
        · rw [hb, List.map_cons, List.foldl_cons]
          have : min best |expected - interDist p.1 p.2| = best := by omega
          rw [this]
        · intro q
          rw [hm q]
          constructor
          · rintro (⟨hq, hbe⟩ | ⟨hq, hbe⟩)
            · exact Or.inl ⟨hq, hbe⟩
            · exact Or.inr ⟨List.mem_cons_of_mem p hq, hbe⟩
          · rintro (⟨hq, hbe⟩ | ⟨hq, hbe⟩)
            · exact Or.inl ⟨hq, hbe⟩
            · rcases List.mem_cons.mp hq with rfl | hq'
              · omega
              · exact Or.inr ⟨hq', hbe⟩

set_option maxHeartbeats 1600000 in
/-- C8: `choose_pairs` runs its selection exactly when both mates' candidate
signature sets are non-empty and at least one has two or more signatures; it
then keeps exactly the left/right pairs whose inter-mate gap distance to the
expected insert size is minimal (every tied pair kept) and drops all
non-selected signatures from both sides; otherwise it returns both sets
unchanged.  (The hypothesis asks for one pair whose distance does not
exceed `sys.maxsize`, the loop's initial best: without it no pair is ever
picked and the assertion fails — see the counterexample.) -/
theorem C8_choose_pairs_selection (expected : Int) (ls rs : List Ht)
    (hdiff : ∃ l ∈ ls, ∃ r ∈ rs, |expected - interDist l r| ≤ sysMaxsize) :
    (¬(0 < ls.length ∧ 0 < rs.length ∧ 2 ≤ max ls.length rs.length) →
      choose_pairs expected ls rs = some (ls, rs))
    ∧ ((0 < ls.length ∧ 0 < rs.length ∧ 2 ≤ max ls.length rs.length) →
      ∃ ls' rs', choose_pairs expected ls rs = some (ls', rs')
        ∧ (∀ x, x ∈ ls' ↔ x ∈ ls ∧ ∃ r ∈ rs, ∀ l' ∈ ls, ∀ r' ∈ rs,
            |expected - interDist x r| ≤ |expected - interDist l' r'|)
        ∧ (∀ y, y ∈ rs' ↔ y ∈ rs ∧ ∃ l ∈ ls, ∀ l' ∈ ls, ∀ r' ∈ rs,
            |expected - interDist l y| ≤ |expected - interDist l' r'|)) := by
  constructor
  · intro hnc
    unfold choose_pairs
    rw [if_neg hnc]
  · intro hc
    have hinv0 : ∀ q ∈ ([] : List (Ht × Ht)),
        |expected - interDist q.1 q.2| = sysMaxsize := by
      intro q hq
      cases hq
    rcases pickLoop_spec expected (allPairs ls rs) sysMaxsize [] hinv0
      with ⟨hb, hm⟩
    obtain ⟨l0, hl0, r0, hr0, hd0⟩ := hdiff
    have hq0 : (l0, r0) ∈ allPairs ls rs := (allPairs_mem ls rs (l0, r0)).mpr ⟨hl0, hr0⟩
    have hble : ∀ q ∈ allPairs ls rs,
        (pickLoop expected (allPairs ls rs) sysMaxsize []).1
          ≤ |expected - interDist q.1 q.2| := by
      intro q hq
      rw [hb]
      exact foldl_min_le_mem _ _ _
        (List.mem_map_of_mem (fun q => |expected - interDist q.1 q.2|) hq)
    have hach : ∃ q ∈ allPairs ls rs, |expected - interDist q.1 q.2|
        = (pickLoop expected (allPairs ls rs) sysMaxsize []).1 := by
      rcases foldl_min_mem ((allPairs ls rs).map
          (fun q => |expected - interDist q.1 q.2|)) sysMaxsize with h | h
      · refine ⟨(l0, r0), hq0, le_antisymm ?_ (hble (l0, r0) hq0)⟩
        rw [hb, h]
        exact hd0
      · rcases List.mem_map.mp h with ⟨q, hq, hdq⟩
        exact ⟨q, hq, by rw [hb, hdq]⟩
    have hne : (pickLoop expected (allPairs ls rs) sysMaxsize []).2 ≠ [] := by
      rcases hach with ⟨q, hq, hdq⟩
      intro hempty
      have hmem := (hm q).mpr (Or.inr ⟨hq, hdq⟩)
      rw [hempty] at hmem
      cases hmem
    refine ⟨(pickLoop expected (allPairs ls rs) sysMaxsize []).2.foldl
        (fun s p => addHt s p.1) [],
      (pickLoop expected (allPairs ls rs) sysMaxsize []).2.foldl
        (fun s p => addHt s p.2) [], ?_, ?_, ?_⟩
    · unfold choose_pairs
      rw [if_pos hc, if_neg hne]
    · intro x
      have hfold : x ∈ (pickLoop expected (allPairs ls rs) sysMaxsize []).2.foldl
          (fun s p => addHt s p.1) []
          ↔ x ∈ ([] : List Ht)
            ∨ ∃ q ∈ (pickLoop expected (allPairs ls rs) sysMaxsize []).2,
              q.1 = x :=
        foldl_addHt_mem (fun q => q.1) x _ []
      rw [hfold]
      constructor
      · rintro (hx | ⟨q, hq, rfl⟩)
        · cases hx
        · rcases (hm q).mp hq with ⟨hq', _⟩ | ⟨hqp, hdq⟩
          · cases hq'
          · have hmem := (allPairs_mem ls rs q).mp hqp
            refine ⟨hmem.1, q.2, hmem.2, ?_⟩
            intro l' hl' r' hr'
            rw [hdq]
            exact hble (l', r') ((allPairs_mem ls rs (l', r')).mpr ⟨hl', hr'⟩)
      · rintro ⟨hxls, r, hr, hmin⟩
        have hqp : (x, r) ∈ allPairs ls rs := (allPairs_mem ls rs (x, r)).mpr ⟨hxls, hr⟩
        have hdq : |expected - interDist x r|
            = (pickLoop expected (allPairs ls rs) sysMaxsize []).1 := by
          rcases hach with ⟨q, hq, hdq⟩
          have h1 := hble (x, r) hqp
          have hmemq := (allPairs_mem ls rs q).mp hq
          have h2 := hmin q.1 hmemq.1 q.2 hmemq.2
          dsimp only at h1
          omega
        exact Or.inr ⟨(x, r), (hm (x, r)).mpr (Or.inr ⟨hqp, hdq⟩), rfl⟩
    · intro y
      have hfold : y ∈ (pickLoop expected (allPairs ls rs) sysMaxsize []).2.foldl
          (fun s p => addHt s p.2) []
          ↔ y ∈ ([] : List Ht)
            ∨ ∃ q ∈ (pickLoop expected (allPairs ls rs) sysMaxsize []).2,
              q.2 = y :=
        foldl_addHt_mem (fun q => q.2) y _ []
      rw [hfold]
      constructor
      · rintro (hy | ⟨q, hq, rfl⟩)
        · cases hy
        · rcases (hm q).mp hq with ⟨hq', _⟩ | ⟨hqp, hdq⟩
          · cases hq'
          · have hmem := (allPairs_mem ls rs q).mp hqp
            refine ⟨hmem.2, q.1, hmem.1, ?_⟩
            intro l' hl' r' hr'
            rw [hdq]
            exact hble (l', r') ((allPairs_mem ls rs (l', r')).mpr ⟨hl', hr'⟩)
      · rintro ⟨hyrs, l, hl, hmin⟩
        have hqp : (l, y) ∈ allPairs ls rs := (allPairs_mem ls rs (l, y)).mpr ⟨hl, hyrs⟩
        have hdq : |expected - interDist l y|
            = (pickLoop expected (allPairs ls rs) sysMaxsize []).1 := by
          rcases hach with ⟨q, hq, hdq⟩
          have h1 := hble (l, y) hqp
          have hmemq := (allPairs_mem ls rs q).mp hq
          have h2 := hmin q.1 hmemq.1 q.2 hmemq.2
          dsimp only at h1
          omega
        exact Or.inr ⟨(l, y), (hm (l, y)).mpr (Or.inr ⟨hqp, hdq⟩), rfl⟩

theorem C8_choose_pairs_selection_witness :
    (∃ l ∈ c8ls, ∃ r ∈ c8rs, |(10 : Int) - interDist l r| ≤ sysMaxsize)
    ∧ ((¬(0 < c8ls.length ∧ 0 < c8rs.length ∧ 2 ≤ max c8ls.length c8rs.length) →
        choose_pairs 10 c8ls c8rs = some (c8ls, c8rs))
      ∧ ((0 < c8ls.length ∧ 0 < c8rs.length ∧ 2 ≤ max c8ls.length c8rs.length) →
        ∃ ls' rs', choose_pairs 10 c8ls c8rs = some (ls', rs')
          ∧ (∀ x, x ∈ ls' ↔ x ∈ c8ls ∧ ∃ r ∈ c8rs, ∀ l' ∈ c8ls, ∀ r' ∈ c8rs,
              |(10 : Int) - interDist x r| ≤ |(10 : Int) - interDist l' r'|)
          ∧ (∀ y, y ∈ rs' ↔ y ∈ c8rs ∧ ∃ l ∈ c8ls, ∀ l' ∈ c8ls, ∀ r' ∈ c8rs,
              |(10 : Int) - interDist l y| ≤ |(10 : Int) - interDist l' r'|))) :=
  ⟨by decide, C8_choose_pairs_selection 10 c8ls c8rs (by decide)⟩

/-! ### The decoder's `M` branch and the promotion loop (lines 891-1003 and
1137-1175), and the per-read gates (lines 1128-1135) -/

theorem mdDigitsGo_all (md : List Char) (hdig : ∀ c ∈ md, c.isDigit = true) :
    ∀ fuel pos num, md.length ≤ pos + fuel → pos ≤ md.length →
    mdDigitsGo md fuel pos num
      = ((md.drop pos).foldl (fun a c => a * 10 + (c.toNat - 48)) num,
         md.length) := by
  intro fuel
  induction fuel with
  | zero =>
    intro pos num hf hle
    have hpos : pos = md.length := by omega
    subst hpos
    simp [mdDigitsGo, List.drop_length]
  | succ fuel ih =>
    intro pos num hf hle
    rcases Nat.eq_or_lt_of_le hle with heq | hlt
    · rw [heq]
      simp [mdDigitsGo, List.getElem?_eq_none (le_refl md.length),
        List.drop_length]
    · have hc := hdig md[pos] (List.getElem_mem hlt)
      simp only [mdDigitsGo, List.getElem?_eq_getElem hlt, hc, if_true]
      rw [ih (pos + 1) (num * 10 + (md[pos].toNat - 48)) (by omega) hlt,
        List.drop_eq_getElem_cons hlt, List.foldl_cons]

theorem mdParseStep_all (md : List Char) (hne : md ≠ [])
    (hdig : ∀ c ∈ md, c.isDigit = true) :
    mdParseStep md 0 0 = some (mdVal md, md.length) := by
  obtain ⟨c, rest, rfl⟩ := List.exists_cons_of_ne_nil hne
  have hc : c.isDigit = true := hdig c (List.mem_cons_self c rest)
  unfold mdParseStep
  rw [List.getElem?_cons_zero]
  simp only [hc, if_true]
  rw [mdDigitsGo_all (c :: rest) hdig (c :: rest).length 1 (c.toNat - 48)
    (by simp) (by simp)]
  simp [mdVal]

theorem pmGo_clean (refSeq : List Char) (mp : List (List Char))
    (vars : List (String × Variant)) (varList : List (Nat × String))
    (left rpos length : Nat) (seq : List Char) :
    ∀ n j lastJ, length - j ≤ n →
    (∀ k, j ≤ k → k < length → pileupOkAt mp refSeq seq left rpos k = true) →
    pmGo refSeq mp vars varList left rpos length j lastJ seq
      = some ((if lastJ < length then
                 [⟨CmpType.matchOp, left + lastJ, length - lastJ, none⟩]
               else []), seq, 0) := by
  intro n
  induction n with
  | zero =>
    intro j lastJ hn _
    rw [pmGo, dif_neg (by omega : ¬ j < length)]
  | succ n ih =>
    intro j lastJ hn hok
    by_cases hj : j < length
    · rw [pmGo, dif_pos hj]
      have hk := hok j (le_refl j) hj
      by_cases hskip : rpos + j ≥ seq.length ∨ left + j ≥ refSeq.length
      · rw [if_pos hskip]
        exact ih (j + 1) lastJ (by omega) (fun k h1 h2 => hok k (by omega) h2)
      · rw [if_neg hskip]
        push_neg at hskip
        obtain ⟨hs1, hs2⟩ := hskip
        unfold pileupOkAt at hk
        simp only [Bool.or_eq_true, Bool.and_eq_true, decide_eq_true_eq] at hk
        rcases hk with (hk | hk) | ⟨hmp, hsup⟩
        · omega
        · omega
        rw [List.getElem?_eq_getElem hs1, List.getElem?_eq_getElem hs2]
        dsimp only
        obtain ⟨nt, hnt⟩ : ∃ nt, mp[left + j]? = some nt :=
          ⟨_, List.getElem?_eq_getElem hmp⟩
        rw [if_pos hmp, hnt]
        dsimp only
        rcases nt with _ | ⟨c, cs⟩
        · exact ih (j + 1) lastJ (by omega) (fun k h1 h2 => hok k (by omega) h2)
        · dsimp only
          have hsupp : supportAt mp (left + j) = c :: cs := by
            simp [supportAt, hnt]
          rw [hsupp] at hsup
          rcases hsup with hsup | hsup
          · exact absurd hsup (by simp)
          · rw [List.getElem?_eq_getElem hs1] at hsup
            simp only [decide_eq_true_eq] at hsup
            rw [if_pos hsup]
            exact ih (j + 1) lastJ (by omega) (fun k h1 h2 => hok k (by omega) h2)
    · rw [pmGo, dif_neg hj]

theorem combineMatches_single (op : Cmp) : combineMatches [op] = [op] := by
  rw [combineMatches.eq_def]

/-- C5: a read whose CIGAR is a single match run and whose MD annotation is
a bare number (no mismatch letters) decodes to a single match op spanning
its full aligned length, and the promotion loop mints no novel variant for
it — provided error correction is off or the pileup supports the read along
the span (otherwise the corrector itself can split the run and mint a novel
variant, see the counterexample). -/
theorem C5_pure_match_read (ec : Bool) (refSeq seq : List Char)
    (mp : List (List Char)) (vars : List (String × Variant))
    (varList : List (Nat × String)) (zs : List (Nat × Char × String))
    (md : List Char) (pos length : Nat) (st : CatState)
    (hne : md ≠ []) (hdig : ∀ c ∈ md, c.isDigit = true)
    (hval : mdVal md = length) (hpos : 0 < length)
    (hok : ec = false
      ∨ ∀ k, k < length → pileupOkAt mp refSeq seq pos 0 k = true) :
    decodeMatchRead ec refSeq seq mp vars varList zs md pos length
      = some ([⟨CmpType.matchOp, pos, length, none⟩], seq, 0)
    ∧ promoteNovel seq [⟨CmpType.matchOp, pos, length, none⟩] 0 st
      = some ([⟨CmpType.matchOp, pos, length, none⟩], st) := by
  have hdecode : mLoop md seq vars varList zs 0 pos length (length + 1) true 0 0 0 0
      (match zs[0]? with | some e => e.1 | none => 0)
      = some ([⟨CmpType.matchOp, pos, length, none⟩], md.length, 0, 0,
              (match zs[0]? with | some e => e.1 | none => 0)) := by
    rw [mLoop]
    rw [if_pos (Or.inr rfl)]
    rw [mdParseStep_all md hne hdig, hval]
    simp [hpos]
  constructor
  · unfold decodeMatchRead
    rw [hdecode]
    cases ec with
    | false => simp
    | true =>
      rcases hok with hec | hsup
      · exact absurd hec (by simp)
      simp only [Option.some_bind, if_true]
      rw [if_neg (by simp : ¬([⟨CmpType.matchOp, pos, length, none⟩] : List Cmp) = [])]
      unfold error_correct
      by_cases href : refSeq.length ≤ pos
      · have hcl : correctLoop refSeq mp vars varList
            [⟨CmpType.matchOp, pos, length, none⟩] seq 0
            = some ([⟨CmpType.matchOp, pos, length, none⟩], seq, 0) := by
          rw [correctLoop]
          rw [if_neg (by dsimp only; omega :
            ¬(Cmp.mk CmpType.matchOp pos length none).length = 0)]
          rw [if_pos (by exact href : refSeq.length
            ≤ (Cmp.mk CmpType.matchOp pos length none).left)]
        rw [hcl]
        simp [combineMatches_single]
      · push_neg at href
        have hpm := pmGo_clean refSeq mp vars varList pos 0 length seq length 0 0
          (by omega) (fun k _ hk => hsup k hk)
        rw [if_pos hpos] at hpm
        simp only [Nat.add_zero, Nat.sub_zero] at hpm
        have hcl : correctLoop refSeq mp vars varList
            [⟨CmpType.matchOp, pos, length, none⟩] seq 0
            = some ([⟨CmpType.matchOp, pos, length, none⟩], seq, 0) := by
          rw [correctLoop]
          rw [if_neg (by dsimp only; omega :
            ¬(Cmp.mk CmpType.matchOp pos length none).length = 0)]
          rw [if_neg (by dsimp only; omega : ¬refSeq.length
            ≤ (Cmp.mk CmpType.matchOp pos length none).left)]
          simp only [correctOne, processMatch]
          rw [hpm]
          simp [correctLoop]
        rw [hcl]
        simp [combineMatches_single]
  · simp [promoteNovel, promoteOne]

theorem C5_pure_match_read_witness :
    ((['2'] : List Char) ≠ []
      ∧ (∀ c ∈ (['2'] : List Char), c.isDigit = true)
      ∧ mdVal ['2'] = 2 ∧ 0 < 2
      ∧ (∀ k, k < 2 → pileupOkAt [['G'], ['A']] c5seq c5seq 0 0 k = true))
    ∧ (decodeMatchRead true c5seq c5seq [['G'], ['A']] [] [] [] ['2'] 0 2
        = some ([⟨CmpType.matchOp, 0, 2, none⟩], c5seq, 0)
      ∧ promoteNovel c5seq [⟨CmpType.matchOp, 0, 2, none⟩] 0 ⟨[], [], 0⟩
        = some ([⟨CmpType.matchOp, 0, 2, none⟩], (⟨[], [], 0⟩ : CatState))) :=
  ⟨⟨by decide, by decide, by decide, by decide, by decide⟩,
   C5_pure_match_read true c5seq c5seq [['G'], ['A']] [] [] [] ['2'] 0 2 ⟨[], [], 0⟩
     (by decide) (by decide) (by decide) (by decide) (Or.inr (by decide))⟩

/-- C5 counterexample: with error correction on, a read identical to the
reference over its full aligned span (CIGAR `2M`, MD `2`) is split by an
adversarial pileup into a mismatch op and a match op, and the promotion
loop then mints the novel variant `nv0` for it. -/
theorem C5_counterexample :
    decodeMatchRead true c5seq c5seq c5mp [] [] [] ['2'] 0 2
      = some ([⟨CmpType.mismatch, 0, 1, some "unknown"⟩,
               ⟨CmpType.matchOp, 1, 1, none⟩], ['T', 'A'], 1)
    ∧ (promoteNovel ['T', 'A']
          [⟨CmpType.mismatch, 0, 1, some "unknown"⟩,
           ⟨CmpType.matchOp, 1, 1, none⟩] 0 ⟨[], [], 0⟩).map
        (fun out => (out.1.map Cmp.varId, out.2.count))
      = some ([some "nv0", none], 1) := by
  constructor
  · simp [decodeMatchRead, mLoop, mdParseStep, mdDigitsGo, error_correct,
      correctLoop, correctOne, processMatch, pmGo, searchSingleVar,
      findSingleVar, lower_bound, combineMatches, supportAt, c5seq, c5mp]
  · simp [promoteNovel, promoteOne, add_novel_var, novelInsertIdx,
      lower_bound, alookup]
    decide

/-! ### The per-read quality gates and downstream tallies (lines 1128-1135,
1179, 1362-1417) -/

/-- C9: a read whose correction count exceeds `max(1, num_editdist)` is
rejected by the per-read gate: it contributes nothing to the state — no
novel-variant promotion, no read count, no haplotype strings — and the
surrounding reads are processed exactly as if it were absent. -/
theorem C9_correction_gate (refLen numEditdist : Nat)
    (iad : List Cmp → Nat × Nat × List (List String) × List (List String))
    (st : TState) (pre post : List ReadRec) (r : ReadRec)
    (hgate : max 1 numEditdist < r.numErrorCorrection) :
    processReads refLen numEditdist iad st (pre ++ r :: post)
      = processReads refLen numEditdist iad st (pre ++ post) := by
  induction pre generalizing st with
  | nil =>
    simp only [List.nil_append, processReads]
    have hr : processRead refLen numEditdist iad st r = some st := by
      unfold processRead
      by_cases h1 : refLen < r.rightPos
      · rw [if_pos h1]
      · rw [if_neg h1, if_pos hgate]
    rw [hr, Option.some_bind]
  | cons p t ih =>
    simp only [List.cons_append, processReads]
    cases hp : processRead refLen numEditdist iad st p with
    | none => simp
    | some st' => simp [ih st']

theorem C9_correction_gate_witness :
    max 1 0 < (ReadRec.mk true 0 2 false [] []).numErrorCorrection
    ∧ processReads 10 0 (fun _ => (0, 0, [], []))
        ⟨⟨[], [], 0⟩, 0, [], []⟩ ([] ++ ReadRec.mk true 0 2 false [] [] :: [])
      = processReads 10 0 (fun _ => (0, 0, [], []))
        ⟨⟨[], [], 0⟩, 0, [], []⟩ ([] ++ []) :=
  ⟨by decide,
   C9_correction_gate 10 0 (fun _ => (0, 0, [], [])) ⟨⟨[], [], 0⟩, 0, [], []⟩
     [] [] (ReadRec.mk true 0 2 false [] []) (by decide)⟩

/-- C8 counterexample: when every pair's distance to the expected insert
size exceeds `sys.maxsize` (the loop's initial best), no pair is ever
picked and `assert len(picked) > 0` fails, so the claimed minimal-pair
selection does not happen. -/
theorem C8_counterexample :
    choose_pairs (sysMaxsize + 12) [⟨0, [], 5⟩] [⟨16, [], 30⟩, ⟨17, [], 31⟩]
      = none := by
  decide
